import Mathlib

/-!
Verification development for the multi-source news aggregation pipeline
(src/lib/sources of the SF-Narrative repository).

The TypeScript source is shallowly embedded: JavaScript strings are
modelled as lists of characters (String fields are kept on record types
and converted with .data inside the functions), JavaScript numbers that
hold epoch timestamps are modelled as Int millisecond counts, and every
fallible or stateful operation is made explicit (Option / Except results,
explicit budget-state passing).  Modelling notes for the JavaScript
built-ins used by the source:

* String.prototype.toLowerCase is modelled on the ASCII range (the only
  range the source's keyword and URL comparisons exercise).
* new URL(u) is modelled for the special schemes http: and https:
  (case-insensitive scheme match, host cut at '/', '?', '#' or ':',
  port skipped, path cut at '?' or '#', query cut at '#', empty path
  normalised to "/", hostname lowercased).  Strings without such a
  scheme, or with an empty host, fail to parse, exactly as new URL
  throws on them.  Query pairs are kept as their raw text (the WHATWG
  decode / re-encode round-trip is the identity on the plain ASCII
  parameters the pipeline deals in).
* new Date(s) is modelled on the ISO extended date-only form
  YYYY-MM-DD (parsed as UTC midnight, exactly as JavaScript does);
  every other string is treated as unparseable.  Crucially, new Date
  never throws: an unparseable string yields an Invalid Date whose
  every numeric comparison is false, which the embedding renders as
  Option.none together with a comparison that is false on none.
-/

/-! ## ASCII lowercasing (String.prototype.toLowerCase on the ASCII range) -/

/-- Lowercase one character the way String.prototype.toLowerCase does on
the ASCII range: the code points 65..90 are shifted by 32, everything
else is left alone. -/
def jsCharLower (c : Char) : Char :=
  if h : 65 ≤ c.toNat ∧ c.toNat ≤ 90 then
    Char.ofNatAux (c.toNat + 32) (Or.inl (by omega))
  else c

/-- Lowercase a JavaScript string (modelled as a character list). -/
def jsToLower (s : List Char) : List Char :=
  s.map jsCharLower

theorem charToNat_inj {c d : Char} (h : c.toNat = d.toNat) : c = d :=
  Char.ext (UInt32.ext h)

theorem toNat_ofNatAux (n : Nat) (h : Nat.isValidChar n) :
    (Char.ofNatAux n h).toNat = n := by
  simp [Char.ofNatAux, Char.toNat, UInt32.toNat, UInt32.ofNatCore]

theorem jsCharLower_toNat_of_upper {c : Char} (h : 65 ≤ c.toNat ∧ c.toNat ≤ 90) :
    (jsCharLower c).toNat = c.toNat + 32 := by
  simp only [jsCharLower, dif_pos h]
  exact toNat_ofNatAux _ _

theorem jsCharLower_of_not_upper {c : Char} (h : ¬(65 ≤ c.toNat ∧ c.toNat ≤ 90)) :
    jsCharLower c = c := by
  simp only [jsCharLower, dif_neg h]

theorem jsCharLower_idem (c : Char) : jsCharLower (jsCharLower c) = jsCharLower c := by
  by_cases h : 65 ≤ c.toNat ∧ c.toNat ≤ 90
  · have ht := jsCharLower_toNat_of_upper h
    have : ¬(65 ≤ (jsCharLower c).toNat ∧ (jsCharLower c).toNat ≤ 90) := by omega
    exact jsCharLower_of_not_upper this
  · rw [jsCharLower_of_not_upper h, jsCharLower_of_not_upper h]

/-- Characters outside the uppercase ASCII range are reflected by
jsCharLower: if the image is such a character, so was the argument. -/
theorem jsCharLower_eq_low {c d : Char} (hd : ¬(97 ≤ d.toNat ∧ d.toNat ≤ 122))
    (h : jsCharLower c = d) : c = d := by
  by_cases hc : 65 ≤ c.toNat ∧ c.toNat ≤ 90
  · exfalso
    have ht := jsCharLower_toNat_of_upper hc
    rw [h] at ht
    omega
  · rw [jsCharLower_of_not_upper hc] at h
    exact h

theorem jsToLower_idem (s : List Char) : jsToLower (jsToLower s) = jsToLower s := by
  simp only [jsToLower, List.map_map]
  exact List.map_congr_left fun c _ => jsCharLower_idem c

/-! ## JavaScript regular-expression fragments used by normalizeUrl

The fallback branch of normalizeUrl runs url.toLowerCase().replace(/#.*$/, '').
In JavaScript the dot does not match a line terminator and, without the m
flag, the dollar anchors at the true end of the input, so the regex removes
the text from the leftmost '#' that is not followed by a line terminator
through the end of the string (and removes nothing when no such '#' exists). -/

/-- Line terminators of JavaScript regular expressions. -/
def isLineTerm (c : Char) : Bool :=
  c = '\n' || c = '\r' || c = (Char.ofNat 0x2028) || c = (Char.ofNat 0x2029)

/-- Model of s.replace(/#.*$/, ''): cut at the leftmost '#' that has no
line terminator after it. -/
def stripFrag : List Char → List Char
  | [] => []
  | c :: rest =>
    if c = '#' && !(rest.any isLineTerm) then []
    else c :: stripFrag rest

/-! ## Substring search (String.prototype.includes) -/

/-- Does pat occur at the head of s? -/
def leadMatch : List Char → List Char → Bool
  | [], _ => true
  | _ :: _, [] => false
  | p :: ps, c :: cs => p = c && leadMatch ps cs

/-- Model of s.includes(pat) for character lists. -/
def subList (pat : List Char) : List Char → Bool
  | [] => leadMatch pat []
  | c :: cs => leadMatch pat (c :: cs) || subList pat cs

/-! ## Model of new URL for the special schemes http: and https: -/

/-- The outcome of new URL(u) restricted to the fields normalizeUrl reads:
hostname (already lowercased by the parser), pathname, and the query as a
list of raw name-value pairs in document order. -/
structure ParsedUrl where
  hostname : List Char
  pathname : List Char
  params : List (List Char × List Char)
deriving DecidableEq

/-- Does target occur at the head of s up to ASCII lowercasing of s?
Used for the case-insensitive scheme match of the URL parser. -/
def lowMatch : List Char → List Char → Bool
  | [], _ => true
  | _ :: _, [] => false
  | t :: ts, c :: cs => jsCharLower c = t && lowMatch ts cs

/-- Strip a case-insensitive http:// or https:// scheme, returning the
remainder of the URL, or none when neither scheme is present. -/
def schemeRest (s : List Char) : Option (List Char) :=
  if lowMatch ("http://".data) s then some (s.drop 7)
  else if lowMatch ("https://".data) s then some (s.drop 8)
  else none

/-- Characters that terminate the host component. -/
def hostDelim (c : Char) : Bool :=
  c = '/' || c = '?' || c = '#' || c = ':'

/-- Split a raw query string at every '&' (the pieces contain no '&'). -/
def splitAmp : List Char → List (List Char)
  | [] => [[]]
  | c :: rest =>
    if c = '&' then [] :: splitAmp rest
    else
      match splitAmp rest with
      | [] => [[c]]
      | p :: ps => (c :: p) :: ps

/-- Turn one non-empty piece of the query into a raw name-value pair:
the name is everything before the first '=', the value everything after
it (empty when the piece has no '='). -/
def pieceToPair (piece : List Char) : List Char × List Char :=
  (piece.takeWhile (fun c => c ≠ '='), (piece.dropWhile (fun c => c ≠ '=')).drop 1)

/-- Parse a raw query string into its list of name-value pairs, skipping
empty pieces, as URLSearchParams does. -/
def parseQuery (q : List Char) : List (List Char × List Char) :=
  ((splitAmp q).filter (fun p => p ≠ [])).map pieceToPair

/-- Skip an optional port after the host. -/
def urlAfterHost (rest : List Char) : List Char :=
  match rest.dropWhile (fun c => !hostDelim c) with
  | ':' :: t => t.dropWhile (fun c => !(c = '/' || c = '?' || c = '#'))
  | after1 => after1

/-- The raw path component (empty when the authority is directly
followed by '?', '#' or the end of the input). -/
def urlPath (after : List Char) : List Char :=
  if after.head? = some '/' then after.takeWhile (fun c => !(c = '?' || c = '#'))
  else []

/-- The raw query component, cut at '#'. -/
def urlQuery (after : List Char) : List Char :=
  let afterPath := after.dropWhile (fun c => !(c = '?' || c = '#'))
  if afterPath.head? = some '?' then (afterPath.drop 1).takeWhile (fun c => c ≠ '#')
  else []

/-- Model of new URL(s) for http(s) URLs; none models the constructor
throwing.  The host is cut at '/', '?', '#' or ':' and must be non-empty;
a port is skipped; the path is cut at '?' or '#' and an absent path
becomes "/"; the query is cut at '#'. -/
def jsParseUrl (s : List Char) : Option ParsedUrl :=
  match schemeRest s with
  | none => none
  | some rest =>
    let host := rest.takeWhile (fun c => !hostDelim c)
    if host = [] then none
    else
      let after := urlAfterHost rest
      let path0 := urlPath after
      some { hostname := jsToLower host
             pathname := if path0 = [] then "/".data else path0
             params := parseQuery (urlQuery after) }

/-! ## normalizeUrl -/

/-- The fixed denylist of tracking parameters removed by normalizeUrl. -/
def trackingParams : List (List Char) :=
  [ "utm_source".data, "utm_medium".data, "utm_campaign".data, "utm_term".data,
    "utm_content".data, "ref".data, "source".data, "fbclid".data, "gclid".data,
    "mc_cid".data, "mc_eid".data ]

/-- Delete every tracking parameter (searchParams.delete for each entry of
the denylist removes all pairs with that name, preserving the order of the
remaining pairs). -/
def removeTracking (params : List (List Char × List Char)) :
    List (List Char × List Char) :=
  params.filter (fun p => p.1 ∉ trackingParams)

/-- Code-unit comparison on names used by searchParams.sort(). -/
def nameLe : List Char → List Char → Bool
  | [], _ => true
  | _ :: _, [] => false
  | a :: as, b :: bs =>
    if a.toNat < b.toNat then true
    else if b.toNat < a.toNat then false
    else nameLe as bs

/-- Insert x into l immediately before the first element that is
greater than or equal to x (stable insertion step). -/
def insertLe (le : α → α → Bool) (x : α) : List α → List α
  | [] => [x]
  | y :: ys => if le x y then x :: y :: ys else y :: insertLe le x ys

/-- Stable sort by a total preorder.  Both URLSearchParams.sort and
Array.prototype.sort are specified as stable sorts, and a stable sort by
a total preorder has a unique result, so the model's stable insertion
sort computes exactly what the engine computes. -/
def stableSortLe (le : α → α → Bool) : List α → List α
  | [] => []
  | x :: xs => insertLe le x (stableSortLe le xs)

/-- searchParams.sort(): stable sort of the pairs by name. -/
def sortParams (params : List (List Char × List Char)) :
    List (List Char × List Char) :=
  stableSortLe (fun p q => nameLe p.1 q.1) params

/-- searchParams.toString() on raw pairs: name=value pieces joined by '&'. -/
def serializePairs : List (List Char × List Char) → List Char
  | [] => []
  | [p] => p.1 ++ '=' :: p.2
  | p :: rest => p.1 ++ '=' :: p.2 ++ '&' :: serializePairs rest

/-- hostname.replace(/^www\./, ''). -/
def stripWww : List Char → List Char
  | 'w' :: 'w' :: 'w' :: '.' :: t => t
  | l => l

/-- pathname.replace(/\/$/, ''): drop one trailing slash. -/
def stripTrailingSlash (l : List Char) : List Char :=
  if l.getLast? = some '/' then l.dropLast else l

/-- The reassembly step of normalizeUrl on a successfully parsed URL:
hostname without www., pathname without trailing slash, and the sorted
surviving query pairs. -/
def normBuild (parsed : ParsedUrl) : List Char :=
  let kept := removeTracking parsed.params
  let sorted := sortParams kept
  let hostname := stripWww parsed.hostname
  let pathname := stripTrailingSlash parsed.pathname
  let queryString := serializePairs sorted
  if queryString = [] then hostname ++ pathname
  else hostname ++ pathname ++ '?' :: queryString

/-- normalizeUrl from src/lib/sources/index.ts: parse the URL, delete the
tracking parameters, sort the remaining parameters, and reassemble
hostname (without www.) + pathname (without trailing slash) + sorted
query; on a parse failure fall back to lowercasing and stripping the
fragment. -/
def normalizeUrl (url : List Char) : List Char :=
  match jsParseUrl url with
  | some parsed => normBuild parsed
  | none => jsToLower (stripFrag url)

/-- normalizeUrlForDedup from src/lib/sources/index.ts duplicates the body
of normalizeUrl verbatim; the model shares the definition. -/
def normalizeUrlForDedup (url : List Char) : List Char :=
  normalizeUrl url

/-! ## Model of the JavaScript Date built-in

new Date(s).getTime() is modelled on the ISO extended date-only form
YYYY-MM-DD, which JavaScript parses as UTC midnight; every other string
is treated as unparseable.  A successful parse yields the epoch
millisecond count as an Int; none models an Invalid Date (new Date never
throws on a string, it produces a NaN timestamp instead). -/

def isDigitC (c : Char) : Bool := 48 ≤ c.toNat && c.toNat ≤ 57

def digitVal (c : Char) : Nat := c.toNat - 48

def isLeapYear (y : Nat) : Bool := (y % 4 = 0 && y % 100 ≠ 0) || y % 400 = 0

def daysInMonth (y m : Nat) : Nat :=
  if m = 2 then (if isLeapYear y then 29 else 28)
  else if m = 4 || m = 6 || m = 9 || m = 11 then 30
  else 31

/-- Days from the civil epoch 1970-01-01 to the given civil date
(Howard Hinnant's algorithm, valid for the years the pipeline handles). -/
def civilDays (y m d : Nat) : Int :=
  let yy := if m ≤ 2 then y - 1 else y
  let era := yy / 400
  let yoe := yy % 400
  let mp := (m + 9) % 12
  let doy := (153 * mp + 2) / 5 + d - 1
  let doe := yoe * 365 + yoe / 4 - yoe / 100 + doy
  (era : Int) * 146097 + (doe : Int) - 719468

/-- Model of new Date(s).getTime(): some epoch-milliseconds for a valid
ISO date-only string, none (Invalid Date) otherwise. -/
def jsDateParse (s : String) : Option Int :=
  match s.data with
  | [y1, y2, y3, y4, '-', m1, m2, '-', d1, d2] =>
    if isDigitC y1 && isDigitC y2 && isDigitC y3 && isDigitC y4 &&
        isDigitC m1 && isDigitC m2 && isDigitC d1 && isDigitC d2 then
      let y := ((digitVal y1 * 10 + digitVal y2) * 10 + digitVal y3) * 10 + digitVal y4
      let m := digitVal m1 * 10 + digitVal m2
      let d := digitVal d1 * 10 + digitVal d2
      if 1 ≤ m && m ≤ 12 && 1 ≤ d && d ≤ daysInMonth y m then
        some (civilDays y m d * 86400000)
      else none
    else none
  | _ => none

/-- Civil date from days since 1970-01-01 (inverse direction of
civilDays, used to model Date.prototype.toISOString). -/
def civilFromDays (z : Nat) : Nat × Nat × Nat :=
  let zz := z + 719468
  let era := zz / 146097
  let doe := zz % 146097
  let yoe := (doe - doe / 1460 + doe / 36524 - doe / 146097) / 365
  let y := yoe + era * 400
  let doy := doe - (365 * yoe + yoe / 4 - yoe / 100)
  let mp := (5 * doy + 2) / 153
  let d := doy - (153 * mp + 2) / 5 + 1
  let m := if mp < 10 then mp + 3 else mp - 9
  (if m ≤ 2 then y + 1 else y, m, d)

def pad2 (n : Nat) : String := if n < 10 then "0" ++ toString n else toString n

def pad3 (n : Nat) : String :=
  if n < 10 then "00" ++ toString n
  else if n < 100 then "0" ++ toString n
  else toString n

def pad4 (n : Nat) : String :=
  if n < 10 then "000" ++ toString n
  else if n < 100 then "00" ++ toString n
  else if n < 1000 then "0" ++ toString n
  else toString n

/-- Model of new Date(ms).toISOString() for non-negative epoch
milliseconds. -/
def isoString (ms : Nat) : String :=
  let days := ms / 86400000
  let rem := ms % 86400000
  let ymd := civilFromDays days
  let hh := rem / 3600000
  let mi := rem % 3600000 / 60000
  let ss := rem % 60000 / 1000
  let mss := rem % 1000
  pad4 ymd.1 ++ "-" ++ pad2 ymd.2.1 ++ "-" ++ pad2 ymd.2.2 ++ "T" ++
    pad2 hh ++ ":" ++ pad2 mi ++ ":" ++ pad2 ss ++ "." ++ pad3 mss ++ "Z"

/-! ## The canonical Article record (NewsArticle of src/lib/types.ts) -/

structure NewsArticle where
  title : String
  url : String
  snippet : String
  publishedDate : String
  source : String
deriving DecidableEq

/-! ## scoreRelevance (src/lib/sources/index.ts)

The source reads the clock once through Date.now(); the model takes that
value as the explicit parameter now (epoch milliseconds).  The floating
point division hoursAgo = delta / 3600000 followed by the comparisons
with 0, 6, 24 and 72 is rendered exactly by the integer comparisons of
delta with 0 and the corresponding millisecond bounds (for integral
millisecond deltas below 2^53 the two are equivalent). -/

def SF_KEYWORDS : List (List Char × Int) :=
  [ ("san francisco".data, 10), ("bay area".data, 8), ("sf ".data, 5),
    (" sf".data, 5), ("silicon valley".data, 6), ("oakland".data, 4),
    ("berkeley".data, 4), ("bart".data, 5), ("caltrain".data, 4),
    ("golden gate".data, 5) ]

def SF_NEIGHBORHOODS : List (List Char) :=
  [ "mission".data, "soma".data, "castro".data, "tenderloin".data,
    "haight".data, "marina".data, "noe valley".data, "potrero".data,
    "dogpatch".data, "sunset".data, "richmond".data, "north beach".data,
    "chinatown".data, "financial district".data, "embarcadero".data,
    "hayes valley".data, "pacific heights".data, "nob hill".data,
    "russian hill".data ]

def localSources : List (List Char) :=
  [ "sf standard".data, "mission local".data, "sfchronicle".data, "sfgate".data ]

/-- The keyword loop of scoreRelevance: add the weight of every keyword
contained in the text. -/
def kwScore (text : List Char) : List (List Char × Int) → Int
  | [] => 0
  | kv :: rest => (if subList kv.1 text then kv.2 else 0) + kwScore text rest

/-- The neighborhood loop of scoreRelevance: 3 points per matched name. -/
def nbScore (text : List Char) : List (List Char) → Int
  | [] => 0
  | n :: rest => (if subList n text then 3 else 0) + nbScore text rest

/-- The recency bonus of scoreRelevance.  none models an unparseable
publishedDate (the NaN check skips the whole term).  The source guards
every tier with hoursAgo > 0 so that future-dated articles get nothing. -/
def recencyBonus (now : Int) : Option Int → Int
  | none => 0
  | some t =>
    let delta := now - t
    if 0 < delta && delta < 21600000 then 10
    else if 0 < delta && delta < 86400000 then 5
    else if 0 < delta && delta < 259200000 then 2
    else 0

/-- The source-reputation bonus of scoreRelevance. -/
def sourceBonus (a : NewsArticle) : Int :=
  if localSources.any (fun s => subList s (jsToLower a.source.data)) then 5 else 0

/-- scoreRelevance from src/lib/sources/index.ts: keyword weights over
the lowercased title-plus-snippet text, neighborhood matches, the
recency tier, and the local-source bonus, summed. -/
def scoreRelevance (now : Int) (a : NewsArticle) : Int :=
  let text := jsToLower (a.title.data ++ ' ' :: a.snippet.data)
  kwScore text SF_KEYWORDS + nbScore text SF_NEIGHBORHOODS +
    recencyBonus now (jsDateParse a.publishedDate) + sourceBonus a

/-- The clock-independent part of scoreRelevance (everything except the
recency tier). -/
def scoreNoRecency (a : NewsArticle) : Int :=
  kwScore (jsToLower (a.title.data ++ ' ' :: a.snippet.data)) SF_KEYWORDS +
    nbScore (jsToLower (a.title.data ++ ' ' :: a.snippet.data)) SF_NEIGHBORHOODS +
    sourceBonus a

/-! ## filterByDate (src/lib/sources/index.ts)

The source wraps new Date(article.publishedDate) in try/catch and
returns true from the catch arm, but new Date never throws on a string:
an unparseable date yields an Invalid Date whose timestamp is NaN, and
the comparison pubDate >= fromDate on NaN is false, so the filter drops
the article.  The catch arm is unreachable and the model therefore has
no counterpart of it. -/

def filterByDate (articles : List NewsArticle) (fromDate : Option Int) :
    List NewsArticle :=
  match fromDate with
  | none => articles
  | some fd =>
    articles.filter fun a =>
      match jsDateParse a.publishedDate with
      | some t => decide (fd ≤ t)
      | none => false

/-! ## Deduplication (src/lib/sources/index.ts) -/

/-- The normalized-URL key of an article. -/
def keyOf (a : NewsArticle) : List Char :=
  normalizeUrlForDedup a.url.data

/-- deduplicateByUrl: single pass keeping the first occurrence per
normalized-URL key (the Set of seen keys is modelled as a list). -/
def dedupGo (seen : List (List Char)) : List NewsArticle → List NewsArticle
  | [] => []
  | a :: rest =>
    let key := normalizeUrl a.url.data
    if key ∈ seen then dedupGo seen rest
    else a :: dedupGo (key :: seen) rest

def deduplicateByUrl (articles : List NewsArticle) : List NewsArticle :=
  dedupGo [] articles

/-! ## The four news categories and the per-category map -/

inductive NewsCategory where
  | tech
  | politics
  | economy
  | sfLocal
deriving DecidableEq

/-- The record shape returned by the by-category fetchers: one article
list per category. -/
structure CategoryMap where
  tech : List NewsArticle
  politics : List NewsArticle
  economy : List NewsArticle
  sfLocal : List NewsArticle
deriving DecidableEq

def CategoryMap.get (m : CategoryMap) : NewsCategory → List NewsArticle
  | .tech => m.tech
  | .politics => m.politics
  | .economy => m.economy
  | .sfLocal => m.sfLocal

def CategoryMap.set (m : CategoryMap) : NewsCategory → List NewsArticle → CategoryMap
  | .tech, l => { m with tech := l }
  | .politics, l => { m with politics := l }
  | .economy, l => { m with economy := l }
  | .sfLocal, l => { m with sfLocal := l }

def emptyCategoryMap : CategoryMap := ⟨[], [], [], []⟩

/-! ## TheNewsAPI backup client (src/lib/sources/thenewsapi-client.ts) -/

/-- The provider fields the conversion in fetchTheNewsAPIArticles reads. -/
structure TheNewsAPIArticle where
  title : String
  description : String
  snippet : String
  url : String
  published_at : String
  source : String
deriving DecidableEq

/-- The module-level mutable budget of the backup client: dailyUsage and
usageResetDate, threaded explicitly through the model. -/
structure BudgetState where
  dailyUsage : Nat
  usageResetDate : String
deriving DecidableEq

/-- checkAndResetUsage: zero the counter when the stored reset date is
no longer today. -/
def checkAndResetUsage (today : String) (st : BudgetState) : BudgetState :=
  if today ≠ st.usageResetDate then { dailyUsage := 0, usageResetDate := today }
  else st

/-- The possible outcomes of the awaited fetch inside
fetchTheNewsAPIArticles: the fetch promise rejects (network failure);
the response arrives with a non-2xx status; the response is 2xx but the
body fails to parse; or the response is 2xx with a parsed body. -/
inductive BackupOutcome where
  | throws
  | respNotOk
  | respBadJson
  | respOk (body : List TheNewsAPIArticle)
deriving DecidableEq

/-- The field mapping of fetchTheNewsAPIArticles (the JavaScript ||
chains read empty strings as falsy). -/
def convertTheNewsAPI (a : TheNewsAPIArticle) : NewsArticle :=
  { title := a.title
    url := a.url
    snippet := if a.snippet ≠ "" then a.snippet
      else if a.description ≠ "" then a.description else a.title
    publishedDate := a.published_at
    source := if a.source ≠ "" then a.source else "TheNewsAPI" }

/-- fetchTheNewsAPIArticles: gate on the credential, reset and gate on
the daily budget, then issue the request.  dailyUsage++ sits directly
after the awaited fetch, so it runs for any response that arrives
(success, error status, or unparseable body) but not when the fetch
itself rejects.  Every failure arm returns the empty list; nothing
escapes the function.  The category and limit only shape the request
URL, whose response is already summarised by the outcome argument. -/
def fetchTheNewsAPIArticles (category : NewsCategory) (limit : Nat)
    (apiKey : Option String) (today : String) (outcome : BackupOutcome)
    (st : BudgetState) : List NewsArticle × BudgetState :=
  match apiKey with
  | none => ([], st)
  | some _ =>
    let st1 := checkAndResetUsage today st
    if st1.dailyUsage ≥ 95 then ([], st1)
    else
      match outcome with
      | .throws => ([], st1)
      | .respNotOk => ([], { st1 with dailyUsage := st1.dailyUsage + 1 })
      | .respBadJson => ([], { st1 with dailyUsage := st1.dailyUsage + 1 })
      | .respOk body =>
        (body.map convertTheNewsAPI, { st1 with dailyUsage := st1.dailyUsage + 1 })

/-! ## Reddit client (src/lib/sources/reddit-client.ts) -/

/-- The post fields fetchSubreddit reads from the listing response. -/
structure RedditPost where
  id : String
  title : String
  url : String
  selftext : String
  permalink : String
  score : Int
  created_utc : Nat
  num_comments : Nat
  subreddit : String
  is_self : Bool
deriving DecidableEq

/-- The quality filter of fetchSubreddit, in source order: drop posts
below the community minimum score, posts whose lowercased title contains
"rule", and posts whose lowercased title contains both "weekly" and
"thread". -/
def passesQualityFilter (minScore : Int) (p : RedditPost) : Bool :=
  if p.score < minScore then false
  else if subList ("rule".data) (jsToLower p.title.data) then false
  else if subList ("weekly".data) (jsToLower p.title.data) &&
      subList ("thread".data) (jsToLower p.title.data) then false
  else true

/-- The snippet construction of fetchSubreddit: first 300 characters of
the selftext with newlines replaced by spaces and the ends trimmed, or a
default line for link posts. -/
def redditSnippet (p : RedditPost) : String :=
  if p.selftext ≠ "" then
    String.mk ((((p.selftext.data.take 300).map
      (fun c => if c = '\n' then ' ' else c)).dropWhile Char.isWhitespace).reverse.dropWhile
        Char.isWhitespace).reverse
  else
    "Discussion on r/" ++ p.subreddit ++ " with " ++ toString p.num_comments ++ " comments"

/-- The conversion arm of fetchSubreddit. -/
def postToArticle (p : RedditPost) : NewsArticle :=
  { title := p.title
    url := if p.is_self then "https://reddit.com" ++ p.permalink else p.url
    snippet := redditSnippet p
    publishedDate := isoString (p.created_utc * 1000)
    source := "Reddit r/" ++ p.subreddit }

/-- The body of fetchSubreddit after a successful response: quality
filter, then conversion. -/
def fetchSubredditArticles (minScore : Int) (children : List RedditPost) :
    List NewsArticle :=
  (children.filter (passesQualityFilter minScore)).map postToArticle

/-! ## The aggregation orchestrator (src/lib/sources/index.ts)

The two public operations are modelled as pure functions of the run's
environment: the clock value, the outcome of each primary adapter call
(an Except, whose error constructor models the adapter call rejecting
and being caught by the orchestrator's try/catch or .catch), the backup
credential, today's date string, the summarised backup HTTP outcomes,
and the incoming budget state.  Each returns its article output together
with the backup calls it made and the final budget state. -/

structure FetchOptions where
  limit : Nat := 10
  fromDate : Option Int := none
  skipBackup : Bool := false

/-- Article-list sort of the orchestrator: map to scores, stable sort by
the comparator (a, b) => b.score - a.score (descending score, stable),
as Array.prototype.sort is specified. -/
def sortByScore (now : Int) (articles : List NewsArticle) : List NewsArticle :=
  stableSortLe (fun a b => decide (scoreRelevance now b ≤ scoreRelevance now a)) articles

/-- The shared tail of both operations: date filter, intra-category
dedup, score-and-sort, truncate. -/
def processCategory (opts : FetchOptions) (now : Int)
    (articles : List NewsArticle) : List NewsArticle :=
  (sortByScore now (deduplicateByUrl (filterByDate articles opts.fromDate))).take opts.limit

/-- The primary-source articles fetchFromAllSources accumulates for a
category before considering the backup: RSS, then Reddit, then (for tech
only) Hacker News; a failed call contributes the empty list. -/
def primaryArticles (category : NewsCategory) (rss reddit : Except Unit CategoryMap)
    (hn : Except Unit (List NewsArticle)) : List NewsArticle :=
  (match rss with
   | .ok r => r.get category
   | .error _ => []) ++
  (match reddit with
   | .ok r => r.get category
   | .error _ => []) ++
  (if category = .tech then
    match hn with
    | .ok l => l
    | .error _ => []
  else [])

/-- fetchFromAllSources: primary adapters, then the backup when fewer
than 5 articles were collected and the caller did not opt out, then the
filter-dedup-score-sort-truncate tail.  Returns (articles, number of
backup calls, final budget state). -/
def fetchFromAllSources (category : NewsCategory) (opts : FetchOptions) (now : Int)
    (rss reddit : Except Unit CategoryMap) (hn : Except Unit (List NewsArticle))
    (apiKey : Option String) (today : String) (backupOut : BackupOutcome)
    (st : BudgetState) : List NewsArticle × Nat × BudgetState :=
  let allArticles := primaryArticles category rss reddit hn
  if !opts.skipBackup && decide (allArticles.length < 5) then
    let backup := fetchTheNewsAPIArticles category 10 apiKey today backupOut st
    (processCategory opts now (allArticles ++ backup.1), 1, backup.2)
  else
    (processCategory opts now allArticles, 0, st)

/-- The per-category combination step of fetchAllCategories (Hacker News
contributes to tech only). -/
def combinedArticles (rss reddit : Except Unit CategoryMap)
    (hn : Except Unit (List NewsArticle)) : CategoryMap :=
  let rssA := match rss with
    | .ok r => r
    | .error _ => emptyCategoryMap
  let redditA := match reddit with
    | .ok r => r
    | .error _ => emptyCategoryMap
  let hnA := match hn with
    | .ok l => l
    | .error _ => []
  { tech := rssA.tech ++ redditA.tech ++ hnA
    politics := rssA.politics ++ redditA.politics
    economy := rssA.economy ++ redditA.economy
    sfLocal := rssA.sfLocal ++ redditA.sfLocal }

/-- The object-literal insertion order in which fetchAllCategories walks
Object.entries(combined) when collecting categories that need backup. -/
def categoryEntryOrder : List NewsCategory :=
  [.tech, .politics, .economy, .sfLocal]

/-- The sequential backup loop of fetchAllCategories: one
fetchTheNewsAPIArticles call per needy category, threading the shared
budget state, appending each result to its category. -/
def runBackups (apiKey : Option String) (today : String)
    (backupOut : NewsCategory → BackupOutcome) :
    List NewsCategory → CategoryMap → BudgetState → CategoryMap × BudgetState
  | [], m, st => (m, st)
  | c :: cs, m, st =>
    let r := fetchTheNewsAPIArticles c 10 apiKey today (backupOut c) st
    runBackups apiKey today backupOut cs (m.set c (m.get c ++ r.1)) r.2

/-- One step of the cross-category pass: result[category].filter keeping
the articles whose normalized URL is unseen, adding each kept key to the
shared seen set as the filter callback does. -/
def filterSeen (seen : List (List Char)) :
    List NewsArticle → List NewsArticle × List (List Char)
  | [] => ([], seen)
  | a :: rest =>
    let k := normalizeUrlForDedup a.url.data
    if k ∈ seen then filterSeen seen rest
    else
      let r := filterSeen (k :: seen) rest
      (a :: r.1, r.2)

/-- The cross-category deduplication pass of fetchAllCategories: walk the
fixed priority order sf-local, politics, economy, tech with one shared
seen set. -/
def crossCategoryDedup (r : CategoryMap) : CategoryMap :=
  let s1 := filterSeen [] r.sfLocal
  let s2 := filterSeen s1.2 r.politics
  let s3 := filterSeen s2.2 r.economy
  let s4 := filterSeen s3.2 r.tech
  { sfLocal := s1.1, politics := s2.1, economy := s3.1, tech := s4.1 }

/-- fetchAllCategories: combine the primary results per category, collect
the categories with fewer than 3 articles, run the backup sequentially
for them unless the caller opted out, process every category, and finish
with the cross-category deduplication pass.  Returns (category map, the
ordered list of backup calls made, final budget state). -/
def fetchAllCategories (opts : FetchOptions) (now : Int)
    (rss reddit : Except Unit CategoryMap) (hn : Except Unit (List NewsArticle))
    (apiKey : Option String) (today : String)
    (backupOut : NewsCategory → BackupOutcome) (st : BudgetState) :
    CategoryMap × List NewsCategory × BudgetState :=
  let combined := combinedArticles rss reddit hn
  let needsBackup := categoryEntryOrder.filter
    (fun c => decide ((combined.get c).length < 3))
  let calls := if opts.skipBackup then [] else needsBackup
  let afterBackup := runBackups apiKey today backupOut calls combined st
  let processed : CategoryMap :=
    { tech := processCategory opts now afterBackup.1.tech
      politics := processCategory opts now afterBackup.1.politics
      economy := processCategory opts now afterBackup.1.economy
      sfLocal := processCategory opts now afterBackup.1.sfLocal }
  (crossCategoryDedup processed, calls, afterBackup.2)

/-! ## Scoring lemmas -/

theorem kwScore_nonneg (text : List Char) (l : List (List Char × Int))
    (h : ∀ kv ∈ l, 0 ≤ kv.2) : 0 ≤ kwScore text l := by
  induction l with
  | nil => simp [kwScore]
  | cons kv rest ih =>
    have h1 := h kv (by simp)
    have h2 : 0 ≤ kwScore text rest := ih fun p hp => h p (by simp [hp])
    unfold kwScore
    split <;> omega

theorem nbScore_nonneg (text : List Char) (l : List (List Char)) :
    0 ≤ nbScore text l := by
  induction l with
  | nil => simp [nbScore]
  | cons n rest ih =>
    unfold nbScore
    split <;> omega

theorem recencyBonus_nonneg (now : Int) (t : Option Int) :
    0 ≤ recencyBonus now t := by
  cases t with
  | none => simp [recencyBonus]
  | some v =>
    simp only [recencyBonus]
    split <;> [omega; (split <;> [omega; (split <;> omega)])]

theorem sourceBonus_nonneg (a : NewsArticle) : 0 ≤ sourceBonus a := by
  unfold sourceBonus
  split <;> omega

theorem scoreRelevance_split (now : Int) (a : NewsArticle) :
    scoreRelevance now a =
      scoreNoRecency a + recencyBonus now (jsDateParse a.publishedDate) := by
  unfold scoreRelevance scoreNoRecency
  ring

theorem scoreNoRecency_congr {a b : NewsArticle} (h1 : b.title = a.title)
    (h2 : b.snippet = a.snippet) (h3 : b.source = a.source) :
    scoreNoRecency b = scoreNoRecency a := by
  unfold scoreNoRecency sourceBonus
  rw [h1, h2, h3]

theorem recencyBonus_of_future {now t : Int} (h : now ≤ t) :
    recencyBonus now (some t) = 0 := by
  unfold recencyBonus
  have h1 : ¬(0 < now - t) := by omega
  simp [h1]

/-- C10: scoreRelevance is total and never negative: every component
(keyword weights, neighborhood matches, recency tier, source bonus) only
adds a non-negative amount, and the all-empty article (empty title,
snippet, url, date and source) scores exactly zero. -/
theorem scoreRelevance_nonneg (now : Int) (a : NewsArticle) :
    0 ≤ scoreRelevance now a ∧
      scoreRelevance now (NewsArticle.mk "" "" "" "" "") = 0 := by
  constructor
  · rw [scoreRelevance_split]
    have h1 : 0 ≤ kwScore (jsToLower (a.title.data ++ ' ' :: a.snippet.data)) SF_KEYWORDS :=
      kwScore_nonneg _ _ (by decide)
    have h2 := nbScore_nonneg (jsToLower (a.title.data ++ ' ' :: a.snippet.data)) SF_NEIGHBORHOODS
    have h3 := recencyBonus_nonneg now (jsDateParse a.publishedDate)
    have h4 := sourceBonus_nonneg a
    unfold scoreNoRecency
    omega
  · rfl

/-- C3: the recency component of scoreRelevance is zero whenever the
parsed publishedDate is at or after the clock value now (elapsed time
not strictly positive), so a future-dated article never outscores an
otherwise-identical article published now or in the past; for past
dates the bonus is tiered: 10 points under 6 hours, 5 under 24 hours,
2 under 72 hours, 0 otherwise (thresholds in milliseconds). -/
theorem scoreRelevance_recency_spec (now t : Int) (a : NewsArticle)
    (ha : jsDateParse a.publishedDate = some t) :
    (now ≤ t → scoreRelevance now a = scoreNoRecency a) ∧
    (∀ b : NewsArticle, ∀ tb : Int, b.title = a.title → b.snippet = a.snippet →
      b.source = a.source → jsDateParse b.publishedDate = some tb → tb ≤ now →
      now ≤ t → scoreRelevance now a ≤ scoreRelevance now b) ∧
    (0 < now - t → now - t < 21600000 →
      scoreRelevance now a = scoreNoRecency a + 10) ∧
    (21600000 ≤ now - t → now - t < 86400000 →
      scoreRelevance now a = scoreNoRecency a + 5) ∧
    (86400000 ≤ now - t → now - t < 259200000 →
      scoreRelevance now a = scoreNoRecency a + 2) ∧
    (259200000 ≤ now - t → scoreRelevance now a = scoreNoRecency a) := by
  have hsplit := scoreRelevance_split now a
  rw [ha] at hsplit
  refine ⟨?_, ?_, ?_, ?_, ?_, ?_⟩
  · intro hf
    rw [hsplit, recencyBonus_of_future hf]
    omega
  · intro b tb h1 h2 h3 hb htb hf
    have hsb := scoreRelevance_split now b
    rw [hb] at hsb
    have hbase := scoreNoRecency_congr h1 h2 h3
    have hrb := recencyBonus_nonneg now (some tb)
    rw [hsplit, hsb, recencyBonus_of_future hf, hbase]
    omega
  · intro hpos hlt
    have : recencyBonus now (some t) = 10 := by
      simp only [recencyBonus]
      split_ifs with h1 h2 h3 <;> simp_all <;> omega
    rw [hsplit, this]
  · intro hge hlt
    have : recencyBonus now (some t) = 5 := by
      simp only [recencyBonus]
      split_ifs with h1 h2 h3 <;> simp_all <;> omega
    rw [hsplit, this]
  · intro hge hlt
    have : recencyBonus now (some t) = 2 := by
      simp only [recencyBonus]
      split_ifs with h1 h2 h3 <;> simp_all <;> omega
    rw [hsplit, this]
  · intro hge
    have : recencyBonus now (some t) = 0 := by
      simp only [recencyBonus]
      split_ifs with h1 h2 h3 <;> simp_all <;> omega
    rw [hsplit, this]
    omega

/-- C2: the date filter is claimed to retain articles whose
publishedDate fails to parse (inclusion on uncertainty), but new Date
never throws on a string, so the source's catch arm never runs: the
unparseable date becomes an Invalid Date, the NaN comparison
pubDate >= fromDate is false, and the article is dropped.  This theorem
evaluates the model at the failing input: one article with an
unparseable date and the lower bound 2024-01-01 produce the empty
output, while the claim requires the article to be retained. -/
theorem filterByDate_drops_unparseable :
    jsDateParse "not-a-date" = none ∧
    jsDateParse "2024-01-01" ≠ none ∧
    filterByDate [NewsArticle.mk "t" "https://x.com/a" "s" "not-a-date" "src"]
      (jsDateParse "2024-01-01") = [] := by
  refine ⟨by decide, by decide, ?_⟩
  rfl

/-! ## Sample records used by concrete evaluations -/

def rulesPost : RedditPost :=
  { id := "p1", title := "rules", url := "https://example.com/p1",
    selftext := "", permalink := "/r/sanfrancisco/comments/p1", score := 3,
    created_utc := 1700000000, num_comments := 5, subreddit := "sanfrancisco",
    is_self := true }

def wherePost : RedditPost :=
  { id := "p2", title := "Where to?", url := "https://example.com/p2",
    selftext := "", permalink := "/r/sanfrancisco/comments/p2", score := 100,
    created_utc := 1700000000, num_comments := 5, subreddit := "sanfrancisco",
    is_self := false }

/-- C8 counterexample: the quality filter of the discussion-listing
adapter has no minimum-title-length check and no open-question check.
The post wherePost has a 9-character title (below the minimum length 10
the claim requires) that is an open question (it starts with the word
where and ends in a question mark), and a passing score, yet it is
converted into an article rather than excluded. -/
theorem reddit_filter_missing_checks :
    wherePost.title.length < 10 ∧
    wherePost.title.data.getLast? = some '?' ∧
    10 ≤ wherePost.score ∧
    fetchSubredditArticles 10 [wherePost] = [postToArticle wherePost] := by
  refine ⟨by decide, by decide, by decide, ?_⟩
  rfl

/-- C8 amended: the quality filter excludes exactly the posts below the
community minimum engagement score, the posts whose lowercased title
contains the moderator pattern rule, and the posts whose lowercased
title contains both weekly and thread; it has no title-length or
open-question check.  The concrete scenario of the claim holds: a post
with score 3 (below the community minimum 10) and title rules is
excluded from conversion entirely. -/
theorem reddit_quality_filter_spec (minScore : Int) (p : RedditPost) :
    (passesQualityFilter minScore p = true ↔
      (minScore ≤ p.score ∧
        subList ("rule".data) (jsToLower p.title.data) = false ∧
        (subList ("weekly".data) (jsToLower p.title.data) &&
          subList ("thread".data) (jsToLower p.title.data)) = false)) ∧
    rulesPost.score = 3 ∧
    rulesPost.title = "rules" ∧
    fetchSubredditArticles 10 [rulesPost] = [] := by
  refine ⟨?_, by decide, by decide, by rfl⟩
  unfold passesQualityFilter
  split_ifs with h1 h2 h3 <;>
    simp_all [Bool.and_eq_true, not_and_or] <;> omega

/-- C6 counterexample: a backup call that passes the credential gate and
the budget gate (fresh state, usage 0 of 95) but whose fetch rejects
(network failure) leaves the daily-usage counter unchanged, because the
increment sits after the awaited fetch; the claim requires every such
gated invocation to increment the counter by exactly one. -/
theorem thenewsapi_throws_no_increment :
    (checkAndResetUsage "2024-01-01" (BudgetState.mk 0 "2024-01-01")).dailyUsage < 95 ∧
    ((fetchTheNewsAPIArticles .tech 10 (some "key") "2024-01-01" .throws
        (BudgetState.mk 0 "2024-01-01")).2).dailyUsage ≠
      (checkAndResetUsage "2024-01-01" (BudgetState.mk 0 "2024-01-01")).dailyUsage + 1 := by
  constructor
  · decide
  · decide

/-- C6 amended: a gated backup invocation (credential present, budget
below the 95-call safety margin after the daily reset) increments the
daily-usage counter by exactly one whenever the fetch resolves at all
(success, non-2xx status, or unparseable body), and leaves the counter
at its post-reset value when the fetch itself rejects. -/
theorem thenewsapi_budget_increment (category : NewsCategory) (limit : Nat)
    (key : String) (today : String) (outcome : BackupOutcome) (st : BudgetState)
    (hq : (checkAndResetUsage today st).dailyUsage < 95) :
    (outcome ≠ .throws →
      ((fetchTheNewsAPIArticles category limit (some key) today outcome st).2).dailyUsage
        = (checkAndResetUsage today st).dailyUsage + 1) ∧
    (outcome = .throws →
      (fetchTheNewsAPIArticles category limit (some key) today outcome st).2
        = checkAndResetUsage today st) := by
  have hlt : ¬((checkAndResetUsage today st).dailyUsage ≥ 95) := by omega
  constructor
  · intro hout
    cases outcome with
    | throws => exact absurd rfl hout
    | respNotOk => simp [fetchTheNewsAPIArticles, hlt]
    | respBadJson => simp [fetchTheNewsAPIArticles, hlt]
    | respOk body => simp [fetchTheNewsAPIArticles, hlt]
  · intro hout
    subst hout
    simp [fetchTheNewsAPIArticles, hlt]

/-- Witness for C6: applying the amended theorem at a concrete gated
invocation whose response arrives with an error status shows the counter
going from 0 to 1. -/
theorem thenewsapi_budget_increment_witness :
    ((fetchTheNewsAPIArticles .tech 10 (some "key") "2024-01-01" .respNotOk
        (BudgetState.mk 0 "2024-01-01")).2).dailyUsage
      = (checkAndResetUsage "2024-01-01" (BudgetState.mk 0 "2024-01-01")).dailyUsage + 1 :=
  (thenewsapi_budget_increment .tech 10 "key" "2024-01-01" .respNotOk
    (BudgetState.mk 0 "2024-01-01") (by decide)).1 (by decide)

/-! ## Sample articles used by concrete orchestrator evaluations -/

def artA : NewsArticle :=
  { title := "a", url := "https://example.com/a", snippet := "",
    publishedDate := "2024-01-01", source := "srcA" }

def artB : NewsArticle :=
  { title := "b", url := "https://example.com/b", snippet := "",
    publishedDate := "2024-01-01", source := "srcB" }

def artC : NewsArticle :=
  { title := "c", url := "https://example.com/c", snippet := "",
    publishedDate := "2024-01-01", source := "srcC" }

def rssPolitics3 : CategoryMap := ⟨[], [artA, artB, artC], [], []⟩

def rssPolitics2 : CategoryMap := ⟨[], [artA, artB], [], []⟩

/-- C5 counterexample: in the single-category operation
fetchFromAllSources, a politics run with exactly 3 primary-source
articles and skipBackup left at its default false still makes one
backup call, because the single-category threshold in the source is
fewer than 5 articles, not fewer than 3; the claim says a category with
3 or more primary articles triggers no backup call. -/
theorem fetchFromAllSources_backup_at_three :
    (primaryArticles .politics (.ok rssPolitics3) (.ok emptyCategoryMap)
      (.ok [])).length = 3 ∧
    FetchOptions.skipBackup {} = false ∧
    (fetchFromAllSources .politics {} 0 (.ok rssPolitics3) (.ok emptyCategoryMap)
      (.ok []) none "2024-01-01" .throws (BudgetState.mk 0 "2024-01-01")).2.1 = 1 := by
  exact ⟨rfl, rfl, rfl⟩

/-- C5 amended: the two operations use different backup thresholds.
fetchFromAllSources makes exactly one backup call when skipBackup is
false and the combined primary articles number fewer than 5 (so counts
of 2, 3 and 4 all trigger it) and none otherwise; fetchAllCategories
makes its backup calls sequentially, in the fixed entry order, exactly
for the categories with fewer than 3 combined articles when skipBackup
is false, hence a category with exactly 2 articles gets exactly one
call and a category with 3 or more gets none. -/
theorem backup_trigger_thresholds (cat : NewsCategory) (opts : FetchOptions)
    (now : Int) (rss reddit : Except Unit CategoryMap)
    (hn : Except Unit (List NewsArticle)) (apiKey : Option String) (today : String)
    (backupOut : NewsCategory → BackupOutcome) (bOut : BackupOutcome)
    (st : BudgetState) :
    ((fetchFromAllSources cat opts now rss reddit hn apiKey today bOut st).2.1
      = if !opts.skipBackup && decide ((primaryArticles cat rss reddit hn).length < 5)
        then 1 else 0) ∧
    ((fetchAllCategories opts now rss reddit hn apiKey today backupOut st).2.1
      = if opts.skipBackup then []
        else categoryEntryOrder.filter
          (fun c => decide (((combinedArticles rss reddit hn).get c).length < 3))) ∧
    (opts.skipBackup = false → ((combinedArticles rss reddit hn).get cat).length = 2 →
      List.count cat
        (fetchAllCategories opts now rss reddit hn apiKey today backupOut st).2.1 = 1) ∧
    (3 ≤ ((combinedArticles rss reddit hn).get cat).length →
      cat ∉ (fetchAllCategories opts now rss reddit hn apiKey today backupOut st).2.1) := by
  have hcalls :
      (fetchAllCategories opts now rss reddit hn apiKey today backupOut st).2.1
        = if opts.skipBackup then []
          else categoryEntryOrder.filter
            (fun c => decide (((combinedArticles rss reddit hn).get c).length < 3)) := rfl
  refine ⟨?_, hcalls, ?_, ?_⟩
  · simp only [fetchFromAllSources]
    split <;> rfl
  · intro hskip hlen
    rw [hcalls, hskip]
    simp only [Bool.false_eq_true, if_false]
    rw [List.count_filter (by simp [hlen])]
    cases cat <;> decide
  · intro hlen
    rw [hcalls]
    split
    · exact List.not_mem_nil cat
    · intro hmem
      have := (List.mem_filter.mp hmem).2
      simp at this
      omega

/-- Witness for C5: a politics category with exactly 2 combined primary
articles receives exactly one sequential backup call, and an sf-local
category with 3 combined primary articles is absent from the backup
call list. -/
theorem backup_trigger_thresholds_witness :
    List.count NewsCategory.politics
      (fetchAllCategories {} 0 (.ok rssPolitics2) (.ok emptyCategoryMap) (.ok [])
        none "2024-01-01" (fun _ => .throws) (BudgetState.mk 0 "2024-01-01")).2.1 = 1 ∧
    NewsCategory.sfLocal ∉
      (fetchAllCategories {} 0 (.ok ⟨[], [], [], [artA, artB, artC]⟩)
        (.ok emptyCategoryMap) (.ok []) none "2024-01-01" (fun _ => .throws)
        (BudgetState.mk 0 "2024-01-01")).2.1 :=
  ⟨(backup_trigger_thresholds .politics {} 0 (.ok rssPolitics2) (.ok emptyCategoryMap)
      (.ok []) none "2024-01-01" (fun _ => .throws) .throws
      (BudgetState.mk 0 "2024-01-01")).2.2.1 rfl (by decide),
    (backup_trigger_thresholds .sfLocal {} 0 (.ok ⟨[], [], [], [artA, artB, artC]⟩)
      (.ok emptyCategoryMap) (.ok []) none "2024-01-01" (fun _ => .throws) .throws
      (BudgetState.mk 0 "2024-01-01")).2.2.2 (by decide)⟩

/-! ## Failure-isolation lemmas for the orchestrator -/

theorem emptyCategoryMap_get (c : NewsCategory) : emptyCategoryMap.get c = [] := by
  cases c <;> rfl

theorem CategoryMap.set_get_self (m : CategoryMap) (c : NewsCategory) :
    m.set c (m.get c) = m := by
  cases c <;> rfl

theorem fetchTheNewsAPI_throws_fst (c : NewsCategory) (l : Nat)
    (key : Option String) (today : String) (st : BudgetState) :
    (fetchTheNewsAPIArticles c l key today .throws st).1 = [] := by
  unfold fetchTheNewsAPIArticles
  cases key with
  | none => rfl
  | some k =>
    dsimp only
    split <;> rfl

theorem runBackups_throws (key : Option String) (today : String)
    (outs : NewsCategory → BackupOutcome) (houts : ∀ c, outs c = .throws) :
    ∀ (cs : List NewsCategory) (m : CategoryMap) (st : BudgetState),
      (runBackups key today outs cs m st).1 = m := by
  intro cs
  induction cs with
  | nil => intro m st; rfl
  | cons c rest ih =>
    intro m st
    unfold runBackups
    rw [houts c]
    have h1 := fetchTheNewsAPI_throws_fst c 10 key today st
    rw [ih]
    rw [h1, List.append_nil, CategoryMap.set_get_self]

theorem filterByDate_nil (fd : Option Int) : filterByDate [] fd = [] := by
  cases fd <;> rfl

theorem processCategory_nil (opts : FetchOptions) (now : Int) :
    processCategory opts now [] = [] := by
  unfold processCategory
  rw [filterByDate_nil]
  simp [deduplicateByUrl, dedupGo, sortByScore, stableSortLe]

theorem primaryArticles_all_error (cat : NewsCategory) (e1 e2 : Unit)
    (e3 : Unit) :
    primaryArticles cat (.error e1) (.error e2) (.error e3) = [] := by
  cases cat <;> rfl

/-- C9: no internal failure escapes the orchestrator's two public
operations.  Replacing any failing primary adapter call (the error arm
of the Except, which models the call rejecting and being caught) by a
successful empty result leaves both operations' outputs unchanged, so a
failure contributes exactly an empty list; and when every primary
adapter fails and the backup fetch rejects too, both operations return
empty article lists rather than an error. -/
theorem orchestrator_failure_isolation (cat : NewsCategory) (opts : FetchOptions)
    (now : Int) (e : Unit) (rss reddit : Except Unit CategoryMap)
    (hn : Except Unit (List NewsArticle)) (apiKey : Option String) (today : String)
    (backupOut : NewsCategory → BackupOutcome) (bOut : BackupOutcome)
    (st : BudgetState) :
    (fetchFromAllSources cat opts now (.error e) reddit hn apiKey today bOut st
      = fetchFromAllSources cat opts now (.ok emptyCategoryMap) reddit hn apiKey today bOut st) ∧
    (fetchFromAllSources cat opts now rss (.error e) hn apiKey today bOut st
      = fetchFromAllSources cat opts now rss (.ok emptyCategoryMap) hn apiKey today bOut st) ∧
    (fetchFromAllSources cat opts now rss reddit (.error e) apiKey today bOut st
      = fetchFromAllSources cat opts now rss reddit (.ok []) apiKey today bOut st) ∧
    (fetchAllCategories opts now (.error e) reddit hn apiKey today backupOut st
      = fetchAllCategories opts now (.ok emptyCategoryMap) reddit hn apiKey today backupOut st) ∧
    (fetchAllCategories opts now rss (.error e) hn apiKey today backupOut st
      = fetchAllCategories opts now rss (.ok emptyCategoryMap) hn apiKey today backupOut st) ∧
    (fetchAllCategories opts now rss reddit (.error e) apiKey today backupOut st
      = fetchAllCategories opts now rss reddit (.ok []) apiKey today backupOut st) ∧
    ((fetchFromAllSources cat opts now (.error e) (.error e) (.error e) apiKey today
        .throws st).1 = []) ∧
    ((fetchAllCategories opts now (.error e) (.error e) (.error e) apiKey today
        (fun _ => .throws) st).1 = emptyCategoryMap) := by
  have hprim1 : primaryArticles cat (.error e) reddit hn
      = primaryArticles cat (.ok emptyCategoryMap) reddit hn := by
    cases cat <;> rfl
  have hprim2 : primaryArticles cat rss (.error e) hn
      = primaryArticles cat rss (.ok emptyCategoryMap) hn := by
    cases cat <;> rfl
  refine ⟨?_, ?_, ?_, rfl, rfl, rfl, ?_, ?_⟩
  · simp only [fetchFromAllSources, hprim1]
  · simp only [fetchFromAllSources, hprim2]
  · rfl
  · have hp := primaryArticles_all_error cat e e e
    simp only [fetchFromAllSources, hp]
    split
    · have hb := fetchTheNewsAPI_throws_fst cat 10 apiKey today st
      rw [hb, List.append_nil, processCategory_nil]
    · rw [processCategory_nil]
  · simp only [fetchAllCategories]
    rw [runBackups_throws apiKey today _ (fun _ => rfl)]
    have hc : combinedArticles (Except.error e) (Except.error e)
        (Except.error e) = emptyCategoryMap := rfl
    rw [hc]
    simp only [emptyCategoryMap]
    rw [processCategory_nil]
    rfl

/-! ## Cross-category deduplication lemmas -/

def keysOf (l : List NewsArticle) : List (List Char) := l.map keyOf

theorem filterSeen_snd_mem (x : List Char) :
    ∀ (seen : List (List Char)) (l : List NewsArticle),
      (x ∈ (filterSeen seen l).2 ↔ x ∈ seen ∨ x ∈ keysOf l) := by
  intro seen l
  induction l generalizing seen with
  | nil => simp [filterSeen, keysOf]
  | cons a rest ih =>
    by_cases hk : normalizeUrlForDedup a.url.data ∈ seen
    · simp only [filterSeen, if_pos hk, keysOf, List.map_cons, List.mem_cons]
      rw [ih seen]
      constructor
      · intro h
        rcases h with h | h
        · exact Or.inl h
        · exact Or.inr (Or.inr h)
      · intro h
        rcases h with h | h | h
        · exact Or.inl h
        · subst h
          exact Or.inl hk
        · exact Or.inr h
    · simp only [filterSeen, if_neg hk, keysOf, List.map_cons, List.mem_cons]
      rw [ih (normalizeUrlForDedup a.url.data :: seen)]
      simp only [List.mem_cons, keyOf]
      tauto

theorem keysOf_cons (a : NewsArticle) (l : List NewsArticle) :
    keysOf (a :: l) = normalizeUrlForDedup a.url.data :: keysOf l := rfl

theorem filterSeen_fst_mem (x : List Char) :
    ∀ (seen : List (List Char)) (l : List NewsArticle),
      (x ∈ keysOf (filterSeen seen l).1 ↔ x ∉ seen ∧ x ∈ keysOf l) := by
  intro seen l
  induction l generalizing seen with
  | nil => simp [filterSeen, keysOf]
  | cons a rest ih =>
    by_cases hk : normalizeUrlForDedup a.url.data ∈ seen
    · simp only [filterSeen, if_pos hk]
      rw [ih seen, keysOf_cons]
      simp only [List.mem_cons]
      constructor
      · exact fun h => ⟨h.1, Or.inr h.2⟩
      · rintro ⟨hx, h | h⟩
        · subst h
          exact absurd hk hx
        · exact ⟨hx, h⟩
    · simp only [filterSeen, if_neg hk]
      rw [keysOf_cons, keysOf_cons]
      simp only [List.mem_cons]
      rw [ih (normalizeUrlForDedup a.url.data :: seen)]
      simp only [List.mem_cons]
      constructor
      · rintro (h | ⟨hns, hr⟩)
        · refine ⟨?_, Or.inl h⟩
          rw [h]
          exact hk
        · exact ⟨fun hs => hns (Or.inr hs), Or.inr hr⟩
      · rintro ⟨hns, h | hr⟩
        · exact Or.inl h
        · by_cases hxk : x = normalizeUrlForDedup a.url.data
          · exact Or.inl hxk
          · refine Or.inr ⟨?_, hr⟩
            rintro (hc | hc)
            · exact hxk hc
            · exact hns hc

theorem filterSeen_fst_nodup :
    ∀ (seen : List (List Char)) (l : List NewsArticle),
      (keysOf (filterSeen seen l).1).Nodup := by
  intro seen l
  induction l generalizing seen with
  | nil => simp [filterSeen, keysOf]
  | cons a rest ih =>
    by_cases hk : normalizeUrlForDedup a.url.data ∈ seen
    · simp only [filterSeen, if_pos hk]
      exact ih seen
    · simp only [filterSeen, if_neg hk, keysOf, List.map_cons]
      refine List.Nodup.cons ?_ (ih _)
      intro hmem
      have := (filterSeen_fst_mem _ _ _).mp hmem
      exact this.1 (List.mem_cons_self _ _)

theorem keysOf_append (l1 l2 : List NewsArticle) :
    keysOf (l1 ++ l2) = keysOf l1 ++ keysOf l2 := List.map_append _ _ _

/-- The per-category lists of fetchAllCategories just before its final
cross-category deduplication pass (combination, backup fill, date
filter, intra-category dedup, score sort, truncation). -/
def preCrossDedup (opts : FetchOptions) (now : Int)
    (rss reddit : Except Unit CategoryMap) (hn : Except Unit (List NewsArticle))
    (apiKey : Option String) (today : String)
    (backupOut : NewsCategory → BackupOutcome) (st : BudgetState) : CategoryMap :=
  let combined := combinedArticles rss reddit hn
  let needsBackup := categoryEntryOrder.filter
    (fun c => decide ((combined.get c).length < 3))
  let calls := if opts.skipBackup then [] else needsBackup
  let afterBackup := runBackups apiKey today backupOut calls combined st
  { tech := processCategory opts now afterBackup.1.tech
    politics := processCategory opts now afterBackup.1.politics
    economy := processCategory opts now afterBackup.1.economy
    sfLocal := processCategory opts now afterBackup.1.sfLocal }

/-- C4: fetchAllCategories ends with the cross-category deduplication
pass, and that pass guarantees global uniqueness under the
normalized-URL key: across the four output lists every key occurs at
most once, and a key present in several candidate lists survives
exactly in its highest-priority category in the fixed order sf-local,
politics, economy, tech. -/
theorem crossCategoryDedup_spec (r : CategoryMap) (k : List Char)
    (opts : FetchOptions) (now : Int) (rss reddit : Except Unit CategoryMap)
    (hn : Except Unit (List NewsArticle)) (apiKey : Option String) (today : String)
    (backupOut : NewsCategory → BackupOutcome) (st : BudgetState) :
    ((fetchAllCategories opts now rss reddit hn apiKey today backupOut st).1
      = crossCategoryDedup (preCrossDedup opts now rss reddit hn apiKey today backupOut st)) ∧
    (keysOf ((crossCategoryDedup r).sfLocal ++ (crossCategoryDedup r).politics ++
      (crossCategoryDedup r).economy ++ (crossCategoryDedup r).tech)).Nodup ∧
    (k ∈ keysOf r.sfLocal → k ∈ keysOf (crossCategoryDedup r).sfLocal) ∧
    (k ∉ keysOf r.sfLocal → k ∈ keysOf r.politics →
      k ∈ keysOf (crossCategoryDedup r).politics) ∧
    (k ∉ keysOf r.sfLocal → k ∉ keysOf r.politics → k ∈ keysOf r.economy →
      k ∈ keysOf (crossCategoryDedup r).economy) ∧
    (k ∉ keysOf r.sfLocal → k ∉ keysOf r.politics → k ∉ keysOf r.economy →
      k ∈ keysOf r.tech → k ∈ keysOf (crossCategoryDedup r).tech) := by
  have hout : (crossCategoryDedup r).sfLocal = (filterSeen [] r.sfLocal).1 := rfl
  have hout2 : (crossCategoryDedup r).politics
      = (filterSeen (filterSeen [] r.sfLocal).2 r.politics).1 := rfl
  have hout3 : (crossCategoryDedup r).economy
      = (filterSeen (filterSeen (filterSeen [] r.sfLocal).2 r.politics).2 r.economy).1 := rfl
  have hout4 : (crossCategoryDedup r).tech
      = (filterSeen (filterSeen (filterSeen (filterSeen [] r.sfLocal).2 r.politics).2
          r.economy).2 r.tech).1 := rfl
  have hin2 : ∀ x, x ∈ (filterSeen [] r.sfLocal).2 ↔ x ∈ keysOf r.sfLocal := by
    intro x
    rw [filterSeen_snd_mem]
    simp
  have hin3 : ∀ x, x ∈ (filterSeen (filterSeen [] r.sfLocal).2 r.politics).2 ↔
      x ∈ keysOf r.sfLocal ∨ x ∈ keysOf r.politics := by
    intro x
    rw [filterSeen_snd_mem, hin2]
  have hin4 : ∀ x,
      x ∈ (filterSeen (filterSeen (filterSeen [] r.sfLocal).2 r.politics).2 r.economy).2 ↔
      (x ∈ keysOf r.sfLocal ∨ x ∈ keysOf r.politics) ∨ x ∈ keysOf r.economy := by
    intro x
    rw [filterSeen_snd_mem, hin3]
  have hm1 : ∀ x, x ∈ keysOf (crossCategoryDedup r).sfLocal ↔ x ∈ keysOf r.sfLocal := by
    intro x
    rw [hout, filterSeen_fst_mem]
    simp
  have hm2 : ∀ x, x ∈ keysOf (crossCategoryDedup r).politics ↔
      (x ∉ keysOf r.sfLocal ∧ x ∈ keysOf r.politics) := by
    intro x
    rw [hout2, filterSeen_fst_mem, hin2]
  have hm3 : ∀ x, x ∈ keysOf (crossCategoryDedup r).economy ↔
      (¬(x ∈ keysOf r.sfLocal ∨ x ∈ keysOf r.politics) ∧ x ∈ keysOf r.economy) := by
    intro x
    rw [hout3, filterSeen_fst_mem, hin3]
  have hm4 : ∀ x, x ∈ keysOf (crossCategoryDedup r).tech ↔
      (¬((x ∈ keysOf r.sfLocal ∨ x ∈ keysOf r.politics) ∨ x ∈ keysOf r.economy) ∧
        x ∈ keysOf r.tech) := by
    intro x
    rw [hout4, filterSeen_fst_mem, hin4]
  refine ⟨rfl, ?_, ?_, ?_, ?_, ?_⟩
  · rw [keysOf_append, keysOf_append, keysOf_append]
    have n1 : (keysOf (crossCategoryDedup r).sfLocal).Nodup := by
      rw [hout]; exact filterSeen_fst_nodup _ _
    have n2 : (keysOf (crossCategoryDedup r).politics).Nodup := by
      rw [hout2]; exact filterSeen_fst_nodup _ _
    have n3 : (keysOf (crossCategoryDedup r).economy).Nodup := by
      rw [hout3]; exact filterSeen_fst_nodup _ _
    have n4 : (keysOf (crossCategoryDedup r).tech).Nodup := by
      rw [hout4]; exact filterSeen_fst_nodup _ _
    simp only [List.nodup_append]
    refine ⟨⟨⟨n1, n2, ?_⟩, n3, ?_⟩, n4, ?_⟩
    · intro x hx hx'
      exact ((hm2 x).mp hx').1 ((hm1 x).mp hx)
    · intro x hx hx'
      have h3 := (hm3 x).mp hx'
      rcases List.mem_append.mp hx with h | h
      · exact h3.1 (Or.inl ((hm1 x).mp h))
      · exact h3.1 (Or.inr ((hm2 x).mp h).2)
    · intro x hx hx'
      have h4 := (hm4 x).mp hx'
      rcases List.mem_append.mp hx with h | h
      · rcases List.mem_append.mp h with h' | h'
        · exact h4.1 (Or.inl (Or.inl ((hm1 x).mp h')))
        · exact h4.1 (Or.inl (Or.inr ((hm2 x).mp h').2))
      · exact h4.1 (Or.inr ((hm3 x).mp h).2)
  · intro h
    exact (hm1 k).mpr h
  · intro h1 h2
    exact (hm2 k).mpr ⟨h1, h2⟩
  · intro h1 h2 h3
    refine (hm3 k).mpr ⟨?_, h3⟩
    rintro (h | h)
    · exact h1 h
    · exact h2 h
  · intro h1 h2 h3 h4
    refine (hm4 k).mpr ⟨?_, h4⟩
    rintro ((h | h) | h)
    · exact h1 h
    · exact h2 h
    · exact h3 h

def dupArtPolitics : NewsArticle :=
  { title := "p", url := "https://example.com/a?utm_source=x", snippet := "",
    publishedDate := "2024-01-01", source := "srcP" }

def dupArtTech : NewsArticle :=
  { title := "t", url := "https://example.com/a", snippet := "",
    publishedDate := "2024-01-01", source := "srcT" }

def rWitness : CategoryMap := ⟨[dupArtTech], [dupArtPolitics], [], []⟩

/-- Witness for C4: a normalized URL present in both the politics and
the tech candidate lists is kept in politics (the higher-priority
bucket), and the four output lists of the pass are globally duplicate
free under the normalized-URL key. -/
theorem crossCategoryDedup_spec_witness :
    ("example.com/a".data ∈ keysOf (crossCategoryDedup rWitness).politics) ∧
    (keysOf ((crossCategoryDedup rWitness).sfLocal ++ (crossCategoryDedup rWitness).politics ++
      (crossCategoryDedup rWitness).economy ++ (crossCategoryDedup rWitness).tech)).Nodup :=
  ⟨(crossCategoryDedup_spec rWitness ("example.com/a".data) {} 0 (.ok emptyCategoryMap)
      (.ok emptyCategoryMap) (.ok []) none "2024-01-01" (fun _ => .throws)
      (BudgetState.mk 0 "2024-01-01")).2.2.2.1 (by decide) (by decide),
    (crossCategoryDedup_spec rWitness ("example.com/a".data) {} 0 (.ok emptyCategoryMap)
      (.ok emptyCategoryMap) (.ok []) none "2024-01-01" (fun _ => .throws)
      (BudgetState.mk 0 "2024-01-01")).2.1⟩

/-! ## Permutation and well-formedness lemmas for the query machinery -/

theorem insertLe_perm (le : α → α → Bool) (x : α) (l : List α) :
    (insertLe le x l).Perm (x :: l) := by
  induction l with
  | nil => exact List.Perm.refl _
  | cons y ys ih =>
    unfold insertLe
    split
    · exact List.Perm.refl _
    · exact (ih.cons y).trans (List.Perm.swap x y ys)

theorem stableSortLe_perm (le : α → α → Bool) (l : List α) :
    (stableSortLe le l).Perm l := by
  induction l with
  | nil => exact List.Perm.refl _
  | cons x xs ih => exact (insertLe_perm le x (stableSortLe le xs)).trans (ih.cons x)

theorem sortParams_perm (l : List (List Char × List Char)) :
    (sortParams l).Perm l := stableSortLe_perm _ l

theorem splitAmp_ne_nil (l : List Char) : splitAmp l ≠ [] := by
  induction l with
  | nil => simp [splitAmp]
  | cons c rest ih =>
    unfold splitAmp
    split
    · simp
    · split
      · simp
      · simp

theorem splitAmp_no_amp (l : List Char) :
    ∀ piece ∈ splitAmp l, '&' ∉ piece := by
  induction l with
  | nil =>
    intro piece hp
    simp only [splitAmp, List.mem_singleton] at hp
    subst hp
    simp
  | cons c rest ih =>
    intro piece hp
    unfold splitAmp at hp
    by_cases hc : c = '&'
    · rw [if_pos hc] at hp
      rcases List.mem_cons.mp hp with h | h
      · subst h; simp
      · exact ih piece h
    · rw [if_neg hc] at hp
      rcases hsp : splitAmp rest with _ | ⟨p, ps⟩
      · exact absurd hsp (splitAmp_ne_nil rest)
      · rw [hsp] at hp
        rcases List.mem_cons.mp hp with h | h
        · subst h
          intro hmem
          rcases List.mem_cons.mp hmem with h' | h'
          · exact hc h'.symm
          · exact ih p (hsp ▸ List.mem_cons_self p ps) h'
        · exact ih piece (hsp ▸ List.mem_cons_of_mem p h)

/-- Well-formed raw pair: the name holds no '&' and no '=', the value
holds no '&'.  Every pair the query parser produces is well formed,
which makes the serialization injective. -/
def wfPair (p : List Char × List Char) : Prop :=
  '&' ∉ p.1 ∧ '&' ∉ p.2 ∧ '=' ∉ p.1

theorem parseQuery_wf (q : List Char) : ∀ p ∈ parseQuery q, wfPair p := by
  intro p hp
  simp only [parseQuery, List.mem_map, List.mem_filter] at hp
  obtain ⟨piece, ⟨hpiece, _⟩, hconv⟩ := hp
  have hamp := splitAmp_no_amp q piece hpiece
  subst hconv
  refine ⟨?_, ?_, ?_⟩
  · intro hmem
    exact hamp ((piece.takeWhile_sublist _).mem hmem)
  · intro hmem
    have h1 : '&' ∈ piece.dropWhile (fun c => c ≠ '=') :=
      (List.drop_sublist 1 _).mem hmem
    exact hamp ((piece.dropWhile_sublist _).mem h1)
  · intro hmem
    have := List.mem_takeWhile_imp hmem
    simp at this

theorem jsParseUrl_params_shape {s : List Char} {u : ParsedUrl}
    (h : jsParseUrl s = some u) : ∃ q, u.params = parseQuery q := by
  unfold jsParseUrl at h
  rcases hr : schemeRest s with _ | rest
  · rw [hr] at h
    exact absurd h (by simp)
  · rw [hr] at h
    dsimp only at h
    split at h
    · exact absurd h (by simp)
    · cases Option.some.inj h
      exact ⟨_, rfl⟩

theorem jsParseUrl_params_wf {s : List Char} {u : ParsedUrl}
    (h : jsParseUrl s = some u) : ∀ p ∈ u.params, wfPair p := by
  obtain ⟨q, hq⟩ := jsParseUrl_params_shape h
  rw [hq]
  exact parseQuery_wf q

theorem append_cons_inj {ch : Char} :
    ∀ (a1 : List Char) (b1 a2 b2 : List Char), a1 ++ ch :: b1 = a2 ++ ch :: b2 →
      ch ∉ a1 → ch ∉ a2 → a1 = a2 ∧ b1 = b2 := by
  intro a1
  induction a1 with
  | nil =>
    intro b1 a2 b2 h h1 h2
    cases a2 with
    | nil => simpa using h
    | cons x a2' =>
      simp only [List.nil_append, List.cons_append, List.cons.injEq] at h
      exfalso
      apply h2
      rw [← h.1]
      exact List.mem_cons_self _ _
  | cons x a1' ih =>
    intro b1 a2 b2 h h1 h2
    cases a2 with
    | nil =>
      simp only [List.cons_append, List.nil_append, List.cons.injEq] at h
      exfalso
      apply h1
      rw [h.1]
      exact List.mem_cons_self _ _
    | cons y a2' =>
      simp only [List.cons_append, List.cons.injEq] at h
      have h1' : ch ∉ a1' := fun hm => h1 (List.mem_cons_of_mem x hm)
      have h2' : ch ∉ a2' := fun hm => h2 (List.mem_cons_of_mem y hm)
      obtain ⟨ha, hb⟩ := ih b1 a2' b2 h.2 h1' h2'
      exact ⟨by rw [h.1, ha], hb⟩

theorem serializePairs_one (p : List Char × List Char) :
    serializePairs [p] = p.1 ++ '=' :: p.2 := by
  rw [serializePairs]

theorem serializePairs_cons2 (p q : List Char × List Char)
    (r : List (List Char × List Char)) :
    serializePairs (p :: q :: r)
      = p.1 ++ '=' :: (p.2 ++ '&' :: serializePairs (q :: r)) := by
  rw [serializePairs]
  · simp
  · simp

theorem serializePairs_ne_nil (p : List Char × List Char)
    (l : List (List Char × List Char)) : serializePairs (p :: l) ≠ [] := by
  cases l with
  | nil =>
    rw [serializePairs_one]
    simp
  | cons q r =>
    rw [serializePairs_cons2]
    simp

theorem serializePairs_inj :
    ∀ (l1 l2 : List (List Char × List Char)), (∀ p ∈ l1, wfPair p) →
      (∀ p ∈ l2, wfPair p) → serializePairs l1 = serializePairs l2 → l1 = l2 := by
  intro l1
  induction l1 with
  | nil =>
    intro l2 w1 w2 h
    cases l2 with
    | nil => rfl
    | cons q r2 => exact absurd h.symm (serializePairs_ne_nil q r2)
  | cons p r1 ih =>
    intro l2 w1 w2 h
    cases l2 with
    | nil => exact absurd h (serializePairs_ne_nil p r1)
    | cons q r2 =>
      have wp := w1 p (List.mem_cons_self p r1)
      have wq := w2 q (List.mem_cons_self q r2)
      cases r1 with
      | nil =>
        cases r2 with
        | nil =>
          rw [serializePairs_one, serializePairs_one] at h
          obtain ⟨hk, hv⟩ := append_cons_inj p.1 p.2 q.1 q.2 h wp.2.2 wq.2.2
          rw [Prod.ext hk hv]
        | cons q2 r2' =>
          rw [serializePairs_one, serializePairs_cons2] at h
          obtain ⟨hk, hv⟩ := append_cons_inj p.1 p.2 q.1 _ h wp.2.2 wq.2.2
          exfalso
          apply wp.2.1
          rw [hv]
          exact List.mem_append_right _ (List.mem_cons_self _ _)
      | cons p2 r1' =>
        cases r2 with
        | nil =>
          rw [serializePairs_cons2, serializePairs_one] at h
          obtain ⟨hk, hv⟩ := append_cons_inj p.1 _ q.1 q.2 h wp.2.2 wq.2.2
          exfalso
          apply wq.2.1
          rw [← hv]
          exact List.mem_append_right _ (List.mem_cons_self _ _)
        | cons q2 r2' =>
          rw [serializePairs_cons2, serializePairs_cons2] at h
          obtain ⟨hk, hrest⟩ := append_cons_inj p.1 _ q.1 _ h wp.2.2 wq.2.2
          obtain ⟨hv, hser⟩ := append_cons_inj p.2 _ q.2 _ hrest wp.2.1 wq.2.1
          have hr := ih (q2 :: r2')
            (fun x hx => w1 x (List.mem_cons_of_mem p hx))
            (fun x hx => w2 x (List.mem_cons_of_mem q hx)) hser
          rw [Prod.ext hk hv, hr]

theorem normalizeUrl_of_parse {s : List Char} {u : ParsedUrl}
    (h : jsParseUrl s = some u) : normalizeUrl s = normBuild u := by
  unfold normalizeUrl
  rw [h]

theorem removeTracking_middle (pre suf : List (List Char × List Char))
    (k v : List Char) (hk : k ∉ trackingParams) :
    removeTracking (pre ++ (k, v) :: suf)
      = removeTracking pre ++ (k, v) :: removeTracking suf := by
  unfold removeTracking
  rw [List.filter_append, List.filter_cons]
  simp [hk]

/-- C1: normalizeUrl removes exactly the denylisted tracking parameters.
Two parseable URLs with the same hostname and pathname whose parameter
lists agree after deleting the tracking parameters normalize to the same
string, and two such URLs whose parameter lists differ in the value of
one non-tracking parameter (all other pairs identical) normalize to
different strings. -/
theorem normalizeUrl_tracking_spec (s1 s2 : List Char) (u1 u2 : ParsedUrl)
    (h1 : jsParseUrl s1 = some u1) (h2 : jsParseUrl s2 = some u2)
    (hh : u1.hostname = u2.hostname) (hp : u1.pathname = u2.pathname) :
    (removeTracking u1.params = removeTracking u2.params →
      normalizeUrl s1 = normalizeUrl s2) ∧
    (∀ pre suf k v1 v2, u1.params = pre ++ (k, v1) :: suf →
      u2.params = pre ++ (k, v2) :: suf → k ∉ trackingParams → v1 ≠ v2 →
      normalizeUrl s1 ≠ normalizeUrl s2) := by
  constructor
  · intro hq
    rw [normalizeUrl_of_parse h1, normalizeUrl_of_parse h2]
    unfold normBuild
    rw [hh, hp, hq]
  · intro pre suf k v1 v2 hu1 hu2 hk hv heq
    rw [normalizeUrl_of_parse h1, normalizeUrl_of_parse h2] at heq
    have hm1 : (k, v1) ∈ removeTracking u1.params := by
      rw [hu1, removeTracking_middle _ _ _ _ hk]
      exact List.mem_append_right _ (List.mem_cons_self _ _)
    have hm2 : (k, v2) ∈ removeTracking u2.params := by
      rw [hu2, removeTracking_middle _ _ _ _ hk]
      exact List.mem_append_right _ (List.mem_cons_self _ _)
    have hs1 : (k, v1) ∈ sortParams (removeTracking u1.params) :=
      ((sortParams_perm _).mem_iff).mpr hm1
    have hs2 : (k, v2) ∈ sortParams (removeTracking u2.params) :=
      ((sortParams_perm _).mem_iff).mpr hm2
    obtain ⟨m1, l1, he1⟩ := List.exists_cons_of_ne_nil
      (List.ne_nil_of_mem hs1)
    obtain ⟨m2, l2, he2⟩ := List.exists_cons_of_ne_nil
      (List.ne_nil_of_mem hs2)
    have hne1 : serializePairs (sortParams (removeTracking u1.params)) ≠ [] := by
      rw [he1]
      exact serializePairs_ne_nil m1 l1
    have hne2 : serializePairs (sortParams (removeTracking u2.params)) ≠ [] := by
      rw [he2]
      exact serializePairs_ne_nil m2 l2
    unfold normBuild at heq
    rw [if_neg hne1, if_neg hne2, hh, hp] at heq
    have hqeq : serializePairs (sortParams (removeTracking u1.params))
        = serializePairs (sortParams (removeTracking u2.params)) := by
      have := List.append_cancel_left heq
      exact List.cons.inj this |>.2
    have hwf1 : ∀ p ∈ sortParams (removeTracking u1.params), wfPair p := by
      intro p hp'
      have hmem := ((sortParams_perm _).mem_iff).mp hp'
      exact jsParseUrl_params_wf h1 p (List.mem_of_mem_filter hmem)
    have hwf2 : ∀ p ∈ sortParams (removeTracking u2.params), wfPair p := by
      intro p hp'
      have hmem := ((sortParams_perm _).mem_iff).mp hp'
      exact jsParseUrl_params_wf h2 p (List.mem_of_mem_filter hmem)
    have hsorteq := serializePairs_inj _ _ hwf1 hwf2 hqeq
    have hperm : (removeTracking u1.params).Perm (removeTracking u2.params) :=
      ((sortParams_perm _).symm.trans (hsorteq ▸ sortParams_perm _))
    have hcnt := hperm.count_eq (k, v1)
    rw [hu1, hu2, removeTracking_middle _ _ _ _ hk,
      removeTracking_middle _ _ _ _ hk] at hcnt
    simp only [List.count_append, List.count_cons] at hcnt
    simp only [instBEqOfDecidableEq, BEq.beq, decide_eq_true_eq] at hcnt
    simp [Prod.ext_iff, Ne.symm hv] at hcnt

/-- Witness for C1: the utm_source tracking parameter does not
distinguish two otherwise-identical URLs, while differing values of the
non-tracking parameter page do. -/
theorem normalizeUrl_tracking_spec_witness :
    normalizeUrl ("https://x.com/a?utm_source=t".data)
      = normalizeUrl ("https://x.com/a".data) ∧
    normalizeUrl ("https://x.com/a?page=1".data)
      ≠ normalizeUrl ("https://x.com/a?page=2".data) :=
  ⟨(normalizeUrl_tracking_spec ("https://x.com/a?utm_source=t".data)
      ("https://x.com/a".data)
      ⟨"x.com".data, "/a".data, [("utm_source".data, "t".data)]⟩
      ⟨"x.com".data, "/a".data, []⟩
      (by decide) (by decide) rfl rfl).1 (by decide),
   (normalizeUrl_tracking_spec ("https://x.com/a?page=1".data)
      ("https://x.com/a?page=2".data)
      ⟨"x.com".data, "/a".data, [("page".data, "1".data)]⟩
      ⟨"x.com".data, "/a".data, [("page".data, "2".data)]⟩
      (by decide) (by decide) rfl rfl).2
      [] [] ("page".data) ("1".data) ("2".data) rfl rfl (by decide) (by decide)⟩

def futureArt : NewsArticle :=
  { title := "x", url := "https://example.com/f", snippet := "snip",
    publishedDate := "2024-01-02", source := "src" }

def pastArt : NewsArticle :=
  { title := "x", url := "https://example.com/f", snippet := "snip",
    publishedDate := "2024-01-01", source := "src" }

/-- Witness for C3: with the clock between the two dates, the
future-dated article gets no recency bonus and does not outscore the
otherwise-identical article published in the past. -/
theorem scoreRelevance_recency_spec_witness :
    scoreRelevance 1704100000000 futureArt = scoreNoRecency futureArt ∧
    scoreRelevance 1704100000000 futureArt ≤ scoreRelevance 1704100000000 pastArt :=
  ⟨(scoreRelevance_recency_spec 1704100000000 1704153600000 futureArt (by decide)).1
      (by decide),
   (scoreRelevance_recency_spec 1704100000000 1704153600000 futureArt (by decide)).2.1
      pastArt 1704067200000 rfl rfl rfl (by decide) (by decide) (by decide)⟩

/-! ## Lemmas about the fallback branch of normalizeUrl -/

theorem char_ne_of_toNat_ne {a b : Char} (h : a.toNat ≠ b.toNat) : a ≠ b :=
  fun he => h (he ▸ rfl)

theorem isLineTerm_false_of_toNat {x : Char} (h10 : x.toNat ≠ 10)
    (h13 : x.toNat ≠ 13) (h28 : x.toNat ≠ 8232) (h29 : x.toNat ≠ 8233) :
    isLineTerm x = false := by
  have e1 : x ≠ '\n' := char_ne_of_toNat_ne (by simpa using h10)
  have e2 : x ≠ '\r' := char_ne_of_toNat_ne (by simpa using h13)
  have e3 : x ≠ Char.ofNat 0x2028 := char_ne_of_toNat_ne (by
    intro he
    apply h28
    rw [he]
    decide)
  have e4 : x ≠ Char.ofNat 0x2029 := char_ne_of_toNat_ne (by
    intro he
    apply h29
    rw [he]
    decide)
  simp [isLineTerm, e1, e2, e3, e4]

theorem isLineTerm_lower (c : Char) : isLineTerm (jsCharLower c) = isLineTerm c := by
  by_cases hc : 65 ≤ c.toNat ∧ c.toNat ≤ 90
  · have ht := jsCharLower_toNat_of_upper hc
    rw [isLineTerm_false_of_toNat (by omega) (by omega) (by omega) (by omega),
      isLineTerm_false_of_toNat (x := c) (by omega) (by omega) (by omega) (by omega)]
  · rw [jsCharLower_of_not_upper hc]

theorem jsCharLower_hash_iff (c : Char) : jsCharLower c = '#' ↔ c = '#' := by
  constructor
  · exact jsCharLower_eq_low (by decide)
  · intro h
    subst h
    decide

theorem stripFrag_exists_suffix (l : List Char) : ∃ t, l = stripFrag l ++ t := by
  induction l with
  | nil => exact ⟨[], rfl⟩
  | cons c rest ih =>
    unfold stripFrag
    split
    · exact ⟨c :: rest, rfl⟩
    · obtain ⟨t, ht⟩ := ih
      exact ⟨t, by rw [List.cons_append, ← ht]⟩

theorem stripFrag_lineterm_mem {d : Char} (hd : isLineTerm d = true) :
    ∀ {l : List Char}, d ∈ l → d ∈ stripFrag l := by
  intro l
  induction l with
  | nil => intro h; exact absurd h (List.not_mem_nil d)
  | cons c rest ih =>
    intro hmem
    unfold stripFrag
    split
    · rename_i hcut
      simp only [Bool.and_eq_true, Bool.not_eq_true', decide_eq_true_eq] at hcut
      rcases List.mem_cons.mp hmem with h | h
      · subst h
        rw [hcut.1] at hd
        exact absurd hd (by decide)
      · have : rest.any isLineTerm = true := List.any_eq_true.mpr ⟨d, h, hd⟩
        rw [hcut.2] at this
        exact absurd this (by decide)
    · rcases List.mem_cons.mp hmem with h | h
      · exact h ▸ List.mem_cons_self c _
      · exact List.mem_cons_of_mem c (ih h)

theorem stripFrag_cons (c : Char) (rest : List Char) :
    stripFrag (c :: rest)
      = if (decide (c = '#') && !rest.any isLineTerm) = true then []
        else c :: stripFrag rest := rfl

theorem stripFrag_idem (l : List Char) : stripFrag (stripFrag l) = stripFrag l := by
  induction l with
  | nil => rfl
  | cons c rest ih =>
    rw [stripFrag_cons]
    by_cases hcut : (decide (c = '#') && !rest.any isLineTerm) = true
    · rw [if_pos hcut]
      rfl
    · rw [if_neg hcut, stripFrag_cons]
      have hcut2 : ¬(decide (c = '#') && !(stripFrag rest).any isLineTerm) = true := by
        intro hc
        simp only [Bool.and_eq_true, decide_eq_true_eq, Bool.not_eq_true'] at hc hcut
        apply hcut
        refine ⟨hc.1, ?_⟩
        cases hrany : rest.any isLineTerm with
        | false => rfl
        | true =>
          obtain ⟨d, hdm, hdl⟩ := List.any_eq_true.mp hrany
          have hmem := List.any_eq_true.mpr ⟨d, stripFrag_lineterm_mem hdl hdm, hdl⟩
          rw [hc.2] at hmem
          exact absurd hmem (by decide)
      rw [if_neg hcut2, ih]

theorem stripFrag_lower_comm (l : List Char) :
    stripFrag (jsToLower l) = jsToLower (stripFrag l) := by
  induction l with
  | nil => rfl
  | cons c rest ih =>
    show stripFrag (jsCharLower c :: jsToLower rest)
      = jsToLower (stripFrag (c :: rest))
    have hfun : isLineTerm ∘ jsCharLower = isLineTerm := funext isLineTerm_lower
    have hany : (jsToLower rest).any isLineTerm = rest.any isLineTerm := by
      unfold jsToLower
      rw [List.any_map, hfun]
    rw [stripFrag_cons, stripFrag_cons]
    by_cases hc : c = '#'
    · by_cases hrest : rest.any isLineTerm = true
      · rw [if_neg (by simp [hany, hrest]), if_neg (by simp [hrest])]
        show jsCharLower c :: stripFrag (jsToLower rest)
          = jsToLower (c :: stripFrag rest)
        rw [ih]
        rfl
      · rw [if_pos, if_pos]
        · rfl
        · simp only [Bool.and_eq_true, decide_eq_true_eq, Bool.not_eq_true']
          exact ⟨hc, by simpa using hrest⟩
        · simp only [Bool.and_eq_true, decide_eq_true_eq, Bool.not_eq_true']
          refine ⟨(jsCharLower_hash_iff c).mpr hc, ?_⟩
          rw [hany]
          simpa using hrest
    · have hcl : ¬(jsCharLower c = '#') := fun h => hc ((jsCharLower_hash_iff c).mp h)
      rw [if_neg (by simp [hcl]), if_neg (by simp [hc])]
      show jsCharLower c :: stripFrag (jsToLower rest) = jsToLower (c :: stripFrag rest)
      rw [ih]
      rfl

theorem stripFrag_append_hashfree {pre : List Char} (hpre : '#' ∉ pre)
    (r : List Char) : stripFrag (pre ++ r) = pre ++ stripFrag r := by
  induction pre with
  | nil => rfl
  | cons c cs ih =>
    have hc : c ≠ '#' := fun h => hpre (h ▸ List.mem_cons_self c cs)
    rw [List.cons_append, stripFrag_cons, if_neg (by simp [hc]),
      ih (fun h => hpre (List.mem_cons_of_mem c h)), List.cons_append]

theorem stripFrag_of_no_hash {l : List Char} (h : '#' ∉ l) : stripFrag l = l := by
  have h2 := stripFrag_append_hashfree h []
  rw [List.append_nil] at h2
  rw [h2]
  show l ++ ([] : List Char) = l
  exact List.append_nil l

/-! ## Lemmas about the case-insensitive scheme match -/

theorem lowMatch_lower (T : List Char) :
    ∀ s : List Char, lowMatch T (jsToLower s) = lowMatch T s := by
  induction T with
  | nil => intro s; rfl
  | cons t ts ih =>
    intro s
    cases s with
    | nil => rfl
    | cons c cs =>
      show (decide (jsCharLower (jsCharLower c) = t) && lowMatch ts (jsToLower cs))
        = (decide (jsCharLower c = t) && lowMatch ts cs)
      rw [jsCharLower_idem, ih]

theorem lowMatch_append_of_true {T : List Char} :
    ∀ {p : List Char}, lowMatch T p = true → ∀ t, lowMatch T (p ++ t) = true := by
  induction T with
  | nil => intro p _ t; rfl
  | cons x xs ih =>
    intro p hp t
    cases p with
    | nil => exact absurd hp (by simp [lowMatch])
    | cons c cs =>
      simp only [lowMatch, Bool.and_eq_true] at hp
      show (decide (jsCharLower c = x) && lowMatch xs (cs ++ t)) = true
      rw [ih hp.2]
      simp [hp.1]

theorem lowMatch_take_eq {T : List Char} :
    ∀ {s : List Char}, lowMatch T s = true → jsToLower (s.take T.length) = T := by
  induction T with
  | nil => intro s _; rfl
  | cons x xs ih =>
    intro s hs
    cases s with
    | nil => exact absurd hs (by simp [lowMatch])
    | cons c cs =>
      simp only [lowMatch, Bool.and_eq_true, decide_eq_true_eq] at hs
      show jsCharLower c :: jsToLower (cs.take xs.length) = x :: xs
      rw [hs.1, ih hs.2]

/-- The central no-reparse lemma: a string made of a colon-free block
followed by nothing, a slash-headed block, or a question-mark-headed
block can never match a scheme-like target, i.e. a target whose text up
to its colon contains no '/', '?' or ':'. -/
theorem lowMatch_scheme_false :
    ∀ (h a b rest : List Char), '/' ∉ a → '?' ∉ a → ':' ∉ a → ':' ∉ h →
      (rest = [] ∨ (∃ r, rest = '/' :: r) ∨ (∃ r, rest = '?' :: r)) →
      lowMatch (a ++ ':' :: b) (h ++ rest) = false := by
  intro h
  induction h with
  | nil =>
    intro a b rest ha1 ha2 ha3 _ hr
    cases a with
    | nil =>
      rcases hr with hr | ⟨r, hr⟩ | ⟨r, hr⟩ <;> subst hr <;> rfl
    | cons x a' =>
      rcases hr with hr | ⟨r, hr⟩ | ⟨r, hr⟩ <;> subst hr
      · rfl
      · have hx : ¬(jsCharLower '/' = x) := by
          rw [show jsCharLower '/' = '/' from by decide]
          exact fun he => ha1 (he ▸ List.mem_cons_self x a')
        show (decide (jsCharLower '/' = x) && lowMatch (a' ++ ':' :: b) r) = false
        simp [hx]
      · have hx : ¬(jsCharLower '?' = x) := by
          rw [show jsCharLower '?' = '?' from by decide]
          exact fun he => ha2 (he ▸ List.mem_cons_self x a')
        show (decide (jsCharLower '?' = x) && lowMatch (a' ++ ':' :: b) r) = false
        simp [hx]
  | cons c h' ih =>
    intro a b rest ha1 ha2 ha3 hh hr
    cases a with
    | nil =>
      have hc : ¬(jsCharLower c = ':') := by
        intro he
        have := jsCharLower_eq_low (by decide) he
        exact hh (this ▸ List.mem_cons_self c h')
      show (decide (jsCharLower c = ':') && lowMatch b (h' ++ rest)) = false
      simp [hc]
    | cons x a' =>
      show (decide (jsCharLower c = x) && lowMatch (a' ++ ':' :: b) (h' ++ rest)) = false
      by_cases he : jsCharLower c = x
      · rw [ih a' b rest (fun hm => ha1 (List.mem_cons_of_mem x hm))
          (fun hm => ha2 (List.mem_cons_of_mem x hm))
          (fun hm => ha3 (List.mem_cons_of_mem x hm))
          (fun hm => hh (List.mem_cons_of_mem c hm)) hr]
        simp
      · simp [he]

/-- A lowercase-fixed target matches itself followed by anything. -/
theorem lowMatch_refl_append {T : List Char} (hT : ∀ t ∈ T, jsCharLower t = t) :
    ∀ X, lowMatch T (T ++ X) = true := by
  induction T with
  | nil => intro X; rfl
  | cons t ts ih =>
    intro X
    show (decide (jsCharLower t = t) && lowMatch ts (ts ++ X)) = true
    rw [ih (fun x hx => hT x (List.mem_cons_of_mem t hx)) X]
    simp [hT t (List.mem_cons_self t ts)]

/-! ## Shape of a successful parse -/

theorem jsParseUrl_some_shape {s : List Char} {u : ParsedUrl}
    (h : jsParseUrl s = some u) :
    ∃ rest, schemeRest s = some rest ∧
      rest.takeWhile (fun c => !hostDelim c) ≠ [] ∧
      u.hostname = jsToLower (rest.takeWhile (fun c => !hostDelim c)) ∧
      u.pathname = (if urlPath (urlAfterHost rest) = [] then "/".data
        else urlPath (urlAfterHost rest)) ∧
      u.params = parseQuery (urlQuery (urlAfterHost rest)) := by
  unfold jsParseUrl at h
  rcases hr : schemeRest s with _ | rest
  · rw [hr] at h
    exact absurd h (by simp)
  · rw [hr] at h
    dsimp only at h
    split at h
    · exact absurd h (by simp)
    · rename_i hne
      cases Option.some.inj h
      exact ⟨rest, rfl, hne, rfl, rfl, rfl⟩

theorem urlPath_shape (after : List Char) (hne : urlPath after ≠ []) :
    (∃ t, urlPath after = '/' :: t) ∧
      ∀ c ∈ urlPath after, c ≠ '?' ∧ c ≠ '#' := by
  unfold urlPath at hne ⊢
  by_cases hh : after.head? = some '/'
  · rw [if_pos hh] at hne ⊢
    constructor
    · cases after with
      | nil => exact absurd rfl hne
      | cons c tl =>
        have hc : c = '/' := by simpa using hh
        subst hc
        rw [List.takeWhile_cons]
        simp
    · intro c hc
      have := List.mem_takeWhile_imp hc
      simp only [Bool.not_eq_true', Bool.or_eq_false_iff, decide_eq_false_iff_not] at this
      exact this
  · rw [if_neg hh] at hne
    exact absurd rfl hne

theorem urlQuery_no_hash (after : List Char) : '#' ∉ urlQuery after := by
  unfold urlQuery
  dsimp only
  split
  · intro hmem
    have := List.mem_takeWhile_imp hmem
    simp at this
  · exact List.not_mem_nil _

theorem hostname_chars {s : List Char} {u : ParsedUrl}
    (h : jsParseUrl s = some u) :
    ∀ x ∈ u.hostname, x ≠ ':' ∧ x ≠ '/' ∧ x ≠ '?' ∧ x ≠ '#' := by
  obtain ⟨rest, _, _, hhost, _, _⟩ := jsParseUrl_some_shape h
  intro x hx
  rw [hhost] at hx
  obtain ⟨c, hc, hlow⟩ := List.mem_map.mp hx
  have hdel := List.mem_takeWhile_imp hc
  simp only [Bool.not_eq_true', hostDelim, Bool.or_eq_false_iff,
    decide_eq_false_iff_not] at hdel
  subst hlow
  refine ⟨?_, ?_, ?_, ?_⟩
  · exact fun he => hdel.2 (jsCharLower_eq_low (by decide) he)
  · exact fun he => hdel.1.1.1 (jsCharLower_eq_low (by decide) he)
  · exact fun he => hdel.1.1.2 (jsCharLower_eq_low (by decide) he)
  · exact fun he => hdel.1.2 (jsCharLower_eq_low (by decide) he)

theorem pathname_shape {s : List Char} {u : ParsedUrl}
    (h : jsParseUrl s = some u) :
    (∃ t, u.pathname = '/' :: t) ∧ ∀ x ∈ u.pathname, x ≠ '?' ∧ x ≠ '#' := by
  obtain ⟨rest, _, _, _, hpath, _⟩ := jsParseUrl_some_shape h
  rw [hpath]
  by_cases hnil : urlPath (urlAfterHost rest) = []
  · rw [if_pos hnil]
    refine ⟨⟨[], rfl⟩, ?_⟩
    intro x hx
    have : x = '/' := by simpa using hx
    subst this
    exact ⟨by decide, by decide⟩
  · rw [if_neg hnil]
    obtain ⟨⟨t, ht⟩, hchars⟩ := urlPath_shape _ hnil
    exact ⟨⟨t, ht⟩, hchars⟩

theorem splitAmp_chars (l : List Char) :
    ∀ piece ∈ splitAmp l, ∀ x ∈ piece, x ∈ l := by
  induction l with
  | nil =>
    intro piece hp x hx
    simp only [splitAmp, List.mem_singleton] at hp
    subst hp
    exact absurd hx (List.not_mem_nil x)
  | cons c rest ih =>
    intro piece hp x hx
    unfold splitAmp at hp
    by_cases hc : c = '&'
    · rw [if_pos hc] at hp
      rcases List.mem_cons.mp hp with h | h
      · subst h
        exact absurd hx (List.not_mem_nil x)
      · exact List.mem_cons_of_mem c (ih piece h x hx)
    · rw [if_neg hc] at hp
      rcases hsp : splitAmp rest with _ | ⟨p, ps⟩
      · exact absurd hsp (splitAmp_ne_nil rest)
      · rw [hsp] at hp
        rcases List.mem_cons.mp hp with h | h
        · subst h
          rcases List.mem_cons.mp hx with h' | h'
          · exact h' ▸ List.mem_cons_self c rest
          · exact List.mem_cons_of_mem c
              (ih p (hsp ▸ List.mem_cons_self p ps) x h')
        · exact List.mem_cons_of_mem c
            (ih piece (hsp ▸ List.mem_cons_of_mem p h) x hx)

theorem parseQuery_chars (q : List Char) :
    ∀ p ∈ parseQuery q, ∀ x, (x ∈ p.1 ∨ x ∈ p.2) → x ∈ q := by
  intro p hp x hx
  simp only [parseQuery, List.mem_map, List.mem_filter] at hp
  obtain ⟨piece, ⟨hpiece, _⟩, hconv⟩ := hp
  subst hconv
  apply splitAmp_chars q piece hpiece
  rcases hx with hx | hx
  · exact (piece.takeWhile_sublist _).mem hx
  · exact (piece.dropWhile_sublist _).mem ((List.drop_sublist 1 _).mem hx)

theorem serializePairs_chars :
    ∀ (l : List (List Char × List Char)) (x : Char), x ∈ serializePairs l →
      (∃ p ∈ l, x ∈ p.1 ∨ x ∈ p.2) ∨ x = '=' ∨ x = '&' := by
  intro l
  induction l with
  | nil =>
    intro x hx
    exact absurd hx (List.not_mem_nil x)
  | cons p r ih =>
    intro x hx
    cases r with
    | nil =>
      rw [serializePairs_one] at hx
      rcases List.mem_append.mp hx with h | h
      · exact Or.inl ⟨p, List.mem_cons_self p _, Or.inl h⟩
      · rcases List.mem_cons.mp h with h | h
        · exact Or.inr (Or.inl h)
        · exact Or.inl ⟨p, List.mem_cons_self p _, Or.inr h⟩
    | cons q r' =>
      rw [serializePairs_cons2] at hx
      rcases List.mem_append.mp hx with h | h
      · exact Or.inl ⟨p, List.mem_cons_self p _, Or.inl h⟩
      · rcases List.mem_cons.mp h with h | h
        · exact Or.inr (Or.inl h)
        · rcases List.mem_append.mp h with h | h
          · exact Or.inl ⟨p, List.mem_cons_self p _, Or.inr h⟩
          · rcases List.mem_cons.mp h with h | h
            · exact Or.inr (Or.inr h)
            · rcases ih x h with ⟨p', hp', hor⟩ | hor
              · exact Or.inl ⟨p', List.mem_cons_of_mem p hp', hor⟩
              · exact Or.inr hor

theorem stripWww_mem {x : Char} {l : List Char} (h : x ∈ stripWww l) : x ∈ l := by
  unfold stripWww at h
  split at h
  · simp only [List.mem_cons]
    exact Or.inr (Or.inr (Or.inr (Or.inr h)))
  · exact h

theorem stripTrailingSlash_mem {x : Char} {l : List Char}
    (h : x ∈ stripTrailingSlash l) : x ∈ l := by
  unfold stripTrailingSlash at h
  split at h
  · exact (List.dropLast_sublist l).mem h
  · exact h

theorem normBuild_no_hash {s : List Char} {u : ParsedUrl}
    (h : jsParseUrl s = some u) : '#' ∉ normBuild u := by
  obtain ⟨rest, _, _, _, _, hparams⟩ := jsParseUrl_some_shape h
  have hhostc := hostname_chars h
  have hpathc := (pathname_shape h).2
  have hqsc : '#' ∉ serializePairs (sortParams (removeTracking u.params)) := by
    intro hm
    rcases serializePairs_chars _ _ hm with ⟨p, hp, hor⟩ | hor
    · have hmem := List.mem_of_mem_filter (((sortParams_perm _).mem_iff).mp hp)
      rw [hparams] at hmem
      exact urlQuery_no_hash _ (parseQuery_chars _ p hmem '#' hor)
    · rcases hor with hor | hor <;> exact absurd hor (by decide)
  intro hmem
  simp only [normBuild] at hmem
  split at hmem
  · rcases List.mem_append.mp hmem with hm | hm
    · exact (hhostc _ (stripWww_mem hm)).2.2.2 rfl
    · exact (hpathc _ (stripTrailingSlash_mem hm)).2 rfl
  · rcases List.mem_append.mp hmem with hm | hm
    · rcases List.mem_append.mp hm with hm' | hm'
      · exact (hhostc _ (stripWww_mem hm')).2.2.2 rfl
      · exact (hpathc _ (stripTrailingSlash_mem hm')).2 rfl
    · rcases List.mem_cons.mp hm with hm' | hm'
      · exact absurd hm' (by decide)
      · exact hqsc hm'

theorem normBuild_schemeRest_none {s : List Char} {u : ParsedUrl}
    (h : jsParseUrl s = some u) : schemeRest (normBuild u) = none := by
  obtain ⟨⟨t, hpt⟩, _⟩ := pathname_shape h
  have hhostc := hostname_chars h
  have hcolon : ':' ∉ stripWww u.hostname :=
    fun hm => (hhostc _ (stripWww_mem hm)).1 rfl
  have hP : stripTrailingSlash u.pathname = []
      ∨ ∃ r, stripTrailingSlash u.pathname = '/' :: r := by
    rw [hpt]
    unfold stripTrailingSlash
    split
    · cases t with
      | nil => exact Or.inl rfl
      | cons a t' => exact Or.inr ⟨(a :: t').dropLast, rfl⟩
    · exact Or.inr ⟨t, rfl⟩
  have main : ∀ R : List Char,
      (R = [] ∨ (∃ r, R = '/' :: r) ∨ (∃ r, R = '?' :: r)) →
      schemeRest (stripWww u.hostname ++ R) = none := by
    intro R hR
    have h7 : lowMatch ("http://".data) (stripWww u.hostname ++ R) = false := by
      have e7 : "http://".data = "http".data ++ ':' :: "//".data := rfl
      rw [e7]
      exact lowMatch_scheme_false _ _ _ _ (by decide) (by decide) (by decide) hcolon hR
    have h8 : lowMatch ("https://".data) (stripWww u.hostname ++ R) = false := by
      have e8 : "https://".data = "https".data ++ ':' :: "//".data := rfl
      rw [e8]
      exact lowMatch_scheme_false _ _ _ _ (by decide) (by decide) (by decide) hcolon hR
    unfold schemeRest
    rw [if_neg (by rw [h7]; simp), if_neg (by rw [h8]; simp)]
  by_cases hq : serializePairs (sortParams (removeTracking u.params)) = []
  · have hnb : normBuild u = stripWww u.hostname ++ stripTrailingSlash u.pathname := by
      simp only [normBuild]
      rw [if_pos hq]
    rw [hnb]
    apply main
    rcases hP with hp0 | ⟨r, hr⟩
    · exact Or.inl hp0
    · exact Or.inr (Or.inl ⟨r, hr⟩)
  · have hnb : normBuild u = stripWww u.hostname ++ (stripTrailingSlash u.pathname ++
        '?' :: serializePairs (sortParams (removeTracking u.params))) := by
      simp only [normBuild]
      rw [if_neg hq, List.append_assoc]
    rw [hnb]
    apply main
    rcases hP with hp0 | ⟨r, hr⟩
    · rw [hp0]
      exact Or.inr (Or.inr ⟨_, rfl⟩)
    · rw [hr]
      exact Or.inr (Or.inl ⟨_, rfl⟩)

theorem jsParseUrl_normBuild_none {s : List Char} {u : ParsedUrl}
    (h : jsParseUrl s = some u) : jsParseUrl (normBuild u) = none := by
  unfold jsParseUrl
  rw [normBuild_schemeRest_none h]

theorem takeWhile_nil_cases {p : Char → Bool} {l : List Char}
    (h : l.takeWhile p = []) : l = [] ∨ ∃ c t, l = c :: t ∧ p c = false := by
  cases l with
  | nil => exact Or.inl rfl
  | cons c t =>
    rw [List.takeWhile_cons] at h
    by_cases hc : p c = true
    · rw [if_pos hc] at h
      exact absurd h (by simp)
    · exact Or.inr ⟨c, t, rfl, by simpa using hc⟩

theorem lowerStrip_host_empty {rest : List Char}
    (h : rest.takeWhile (fun c => !hostDelim c) = []) :
    (jsToLower (stripFrag rest)).takeWhile (fun c => !hostDelim c) = [] := by
  rcases takeWhile_nil_cases h with h0 | ⟨d, t, hdt, hd⟩
  · subst h0
    rfl
  · subst hdt
    have hdel : hostDelim d = true := by simpa using hd
    by_cases hdh : d = '#'
    · subst hdh
      rw [stripFrag_cons]
      by_cases hany : (decide ('#' = '#') && !t.any isLineTerm) = true
      · rw [if_pos hany]
        rfl
      · rw [if_neg hany]
        show (jsCharLower '#' :: jsToLower (stripFrag t)).takeWhile
          (fun c => !hostDelim c) = []
        rw [List.takeWhile_cons, if_neg]
        rw [show jsCharLower '#' = '#' from by decide]
        decide
    · rw [stripFrag_cons, if_neg (by simp [hdh])]
      show (jsCharLower d :: jsToLower (stripFrag t)).takeWhile
        (fun c => !hostDelim c) = []
      have hfix : jsCharLower d = d := by
        apply jsCharLower_of_not_upper
        simp only [hostDelim, Bool.or_eq_true, decide_eq_true_eq] at hdel
        rcases hdel with ((h1 | h1) | h1) | h1 <;> subst h1 <;> decide
      rw [List.takeWhile_cons, if_neg]
      rw [hfix]
      simp [hdel]

theorem drop_http (X : List Char) : ("http://".data ++ X).drop 7 = X := by
  have h := List.drop_left ("http://".data) X
  exact h

theorem drop_https (X : List Char) : ("https://".data ++ X).drop 8 = X := by
  have h := List.drop_left ("https://".data) X
  exact h

theorem jsParseUrl_lower_strip_none {s : List Char}
    (h : jsParseUrl s = none) : jsParseUrl (jsToLower (stripFrag s)) = none := by
  unfold jsParseUrl at h ⊢
  rcases hr : schemeRest s with _ | rest
  · unfold schemeRest at hr
    by_cases m7 : lowMatch ("http://".data) s = true
    · rw [if_pos m7] at hr
      exact absurd hr (by simp)
    · by_cases m8 : lowMatch ("https://".data) s = true
      · rw [if_neg m7, if_pos m8] at hr
        exact absurd hr (by simp)
      · have hm7 : lowMatch ("http://".data) (jsToLower (stripFrag s)) = false := by
          rw [lowMatch_lower]
          by_contra hx
          rw [Bool.not_eq_false] at hx
          obtain ⟨tl, htl⟩ := stripFrag_exists_suffix s
          have hap := lowMatch_append_of_true hx tl
          rw [← htl] at hap
          exact m7 hap
        have hm8 : lowMatch ("https://".data) (jsToLower (stripFrag s)) = false := by
          rw [lowMatch_lower]
          by_contra hx
          rw [Bool.not_eq_false] at hx
          obtain ⟨tl, htl⟩ := stripFrag_exists_suffix s
          have hap := lowMatch_append_of_true hx tl
          rw [← htl] at hap
          exact m8 hap
        rw [show schemeRest (jsToLower (stripFrag s)) = none from by
          unfold schemeRest
          rw [if_neg (by rw [hm7]; simp), if_neg (by rw [hm8]; simp)]]
  · rw [hr] at h
    dsimp only at h
    have hhost : rest.takeWhile (fun c => !hostDelim c) = [] := by
      by_contra hne
      rw [if_neg hne] at h
      exact absurd h (by simp)
    unfold schemeRest at hr
    by_cases m7 : lowMatch ("http://".data) s = true
    · rw [if_pos m7] at hr
      have hrest : rest = s.drop 7 := (Option.some.inj hr).symm
      have htake := lowMatch_take_eq m7
      have hlen : ("http://".data).length = 7 := rfl
      rw [hlen] at htake
      have hsplit : s = s.take 7 ++ s.drop 7 := (List.take_append_drop 7 s).symm
      have hpre : '#' ∉ s.take 7 := by
        intro hm
        have hmm : jsCharLower '#' ∈ jsToLower (s.take 7) :=
          List.mem_map_of_mem _ hm
        rw [htake, show jsCharLower '#' = '#' from by decide] at hmm
        exact absurd hmm (by decide)
      have hX : jsToLower (stripFrag s)
          = "http://".data ++ jsToLower (stripFrag (s.drop 7)) := by
        conv_lhs => rw [hsplit]
        rw [stripFrag_append_hashfree hpre]
        unfold jsToLower
        rw [List.map_append]
        rw [show List.map jsCharLower (s.take 7) = "http://".data from htake]
      rw [hX]
      have hsr : schemeRest ("http://".data ++ jsToLower (stripFrag (s.drop 7)))
          = some (jsToLower (stripFrag (s.drop 7))) := by
        unfold schemeRest
        rw [if_pos (lowMatch_refl_append (by decide) _)]
        rw [drop_http]
      rw [hsr]
      dsimp only
      rw [if_pos (lowerStrip_host_empty (hrest ▸ hhost))]
    · by_cases m8 : lowMatch ("https://".data) s = true
      · rw [if_neg m7, if_pos m8] at hr
        have hrest : rest = s.drop 8 := (Option.some.inj hr).symm
        have htake := lowMatch_take_eq m8
        have hlen : ("https://".data).length = 8 := rfl
        rw [hlen] at htake
        have hsplit : s = s.take 8 ++ s.drop 8 := (List.take_append_drop 8 s).symm
        have hpre : '#' ∉ s.take 8 := by
          intro hm
          have hmm : jsCharLower '#' ∈ jsToLower (s.take 8) :=
            List.mem_map_of_mem _ hm
          rw [htake, show jsCharLower '#' = '#' from by decide] at hmm
          exact absurd hmm (by decide)
        have hX : jsToLower (stripFrag s)
            = "https://".data ++ jsToLower (stripFrag (s.drop 8)) := by
          conv_lhs => rw [hsplit]
          rw [stripFrag_append_hashfree hpre]
          unfold jsToLower
          rw [List.map_append]
          rw [show List.map jsCharLower (s.take 8) = "https://".data from htake]
        rw [hX]
        have h7f : lowMatch ("http://".data)
            ("https://".data ++ jsToLower (stripFrag (s.drop 8))) = false := rfl
        have hsr : schemeRest ("https://".data ++ jsToLower (stripFrag (s.drop 8)))
            = some (jsToLower (stripFrag (s.drop 8))) := by
          unfold schemeRest
          rw [if_neg (by rw [h7f]; simp), if_pos (lowMatch_refl_append (by decide) _)]
          rw [drop_https]
        rw [hsr]
        dsimp only
        rw [if_pos (lowerStrip_host_empty (hrest ▸ hhost))]
      · rw [if_neg m7, if_neg m8] at hr
        exact absurd hr (by simp)

/-- C7 counterexample: normalizeUrl is not idempotent.  The first pass
keeps the letter case of the path (x.com/Article), and the second pass,
failing to parse the now scheme-less string, falls back to lowercasing
(x.com/article), so applying normalizeUrl twice changes the string. -/
theorem normalizeUrl_not_idempotent :
    normalizeUrl (normalizeUrl ("https://x.com/Article".data))
      ≠ normalizeUrl ("https://x.com/Article".data) := by decide

/-- C7 amended: normalizeUrl is idempotent on every URL string whose
normalized form is unchanged by ASCII lowercasing (in particular on
every unparseable string, whose normalization already lowercases); in
general a second application returns the lowercase of the first, since
the first pass outputs a scheme-less string that the URL parser rejects
and the fallback then lowercases. -/
theorem normalizeUrl_idem_of_lower (u : List Char)
    (h : jsToLower (normalizeUrl u) = normalizeUrl u) :
    normalizeUrl (normalizeUrl u) = normalizeUrl u := by
  rcases hp : jsParseUrl u with _ | p
  · have hval : normalizeUrl u = jsToLower (stripFrag u) := by
      unfold normalizeUrl
      rw [hp]
    rw [hval]
    have hnone := jsParseUrl_lower_strip_none hp
    have hval2 : normalizeUrl (jsToLower (stripFrag u))
        = jsToLower (stripFrag (jsToLower (stripFrag u))) := by
      unfold normalizeUrl
      rw [hnone]
    rw [hval2, stripFrag_lower_comm, stripFrag_idem, jsToLower_idem]
  · have hval : normalizeUrl u = normBuild p := by
      unfold normalizeUrl
      rw [hp]
    rw [hval] at h ⊢
    have hnone := jsParseUrl_normBuild_none hp
    have hval2 : normalizeUrl (normBuild p)
        = jsToLower (stripFrag (normBuild p)) := by
      unfold normalizeUrl
      rw [hnone]
    rw [hval2, stripFrag_of_no_hash (normBuild_no_hash hp), h]

/-- Witness for C7: a lowercase URL with a surviving query parameter is
a fixed point of a second normalization. -/
theorem normalizeUrl_idem_of_lower_witness :
    normalizeUrl (normalizeUrl ("https://x.com/a?page=1".data))
      = normalizeUrl ("https://x.com/a?page=1".data) :=
  normalizeUrl_idem_of_lower ("https://x.com/a?page=1".data) (by decide)
